import Mathlib

/-!
Verification of the `ModelCheckpointTopN` Keras callback
(`model_checkpoint_top_n.py`): a training-time hook that keeps the
`n_models` best-scoring checkpoints in a `heapq` min-heap and deletes the
file of an evicted checkpoint.

The development shallowly embeds the Python source:

* checkpoint records are tuples `(orientedScore, epoch, path)` compared by
  Python tuple order (lexicographic);
* the CPython `heapq` algorithms (`heappush`, `heappushpop`, `_siftdown`,
  `_siftup`) are reproduced over `List` with explicit fuel so that every
  definition is executable by kernel reduction;
* `__init__` and `on_epoch_end` become pure functions returning the new
  callback state together with the list of observable side effects
  (warnings, `os.remove`, `model.save` / `model.save_weights`).
-/

namespace ModelCheckpointTopN

/-- A tracker entry, mirroring the Python tuple
`(current*self.coef, epoch+1, filepath)`: oriented score (metric value
times the direction coefficient, modelled as a rational), 1-based epoch,
and resolved file path. -/
abbrev Rec : Type := ℚ × ℕ × String

/-- Default record used for out-of-range `List.getD` reads; the heap
algorithms only ever read in-bounds indices. -/
def dRec : Rec := (0, 0, "")

/-- Python string comparison `<`: lexicographic on characters (code
points), shorter prefixes first. -/
def strLt : List Char → List Char → Bool
  | [], [] => false
  | [], _ :: _ => true
  | _ :: _, [] => false
  | a :: as, b :: bs => decide (a < b) || (decide (a = b) && strLt as bs)

lemma strLt_iff : ∀ xs ys : List Char, strLt xs ys = true ↔ xs < ys := by
  intro xs
  induction xs with
  | nil =>
    intro ys
    cases ys with
    | nil =>
      simp only [strLt, Bool.false_eq_true, false_iff]
      intro h
      nomatch h
    | cons y ys =>
      simp only [strLt, true_iff]
      exact List.Lex.nil
  | cons x xs ih =>
    intro ys
    cases ys with
    | nil =>
      simp only [strLt, Bool.false_eq_true, false_iff]
      intro h
      nomatch h
    | cons y ys =>
      simp only [strLt, Bool.or_eq_true, Bool.and_eq_true, decide_eq_true_eq]
      constructor
      · rintro (h | ⟨rfl, h⟩)
        · exact List.Lex.rel h
        · exact List.Lex.cons ((ih ys).1 h)
      · intro h
        cases h with
        | rel hxy => exact Or.inl hxy
        | cons htail => exact Or.inr ⟨rfl, (ih ys).2 htail⟩

/-- Python tuple comparison `<` on `(float, int, str)` tuples:
lexicographic, component-wise. -/
def recLt (a b : Rec) : Bool :=
  decide (a.1 < b.1) ||
    (decide (a.1 = b.1) &&
      (decide (a.2.1 < b.2.1) ||
        (decide (a.2.1 = b.2.1) && strLt a.2.2.data b.2.2.data)))

lemma recLt_iff {a b : Rec} : recLt a b = true ↔
    (a.1 < b.1 ∨ (a.1 = b.1 ∧ (a.2.1 < b.2.1 ∨ (a.2.1 = b.2.1 ∧ a.2.2 < b.2.2)))) := by
  have hs : strLt a.2.2.data b.2.2.data = true ↔ a.2.2 < b.2.2 := by
    rw [strLt_iff]
    exact (String.lt_iff_toList_lt).symm
  unfold recLt
  simp only [Bool.or_eq_true, Bool.and_eq_true, decide_eq_true_eq, hs]

lemma strLt_irrefl : ∀ xs : List Char, strLt xs xs = false := by
  intro xs
  induction xs with
  | nil => rfl
  | cons x t ih => simp [strLt, ih]

lemma recLt_self (a : Rec) : recLt a a = false := by
  simp [recLt, strLt_irrefl]

lemma recLt_trans {a b c : Rec} (hab : recLt a b = true) (hbc : recLt b c = true) :
    recLt a c = true := by
  rw [recLt_iff] at hab hbc ⊢
  rcases hab with h1 | ⟨e1, h1⟩
  · rcases hbc with h2 | ⟨e2, _⟩
    · exact Or.inl (lt_trans h1 h2)
    · exact Or.inl (e2 ▸ h1)
  · rcases hbc with h2 | ⟨e2, h2⟩
    · exact Or.inl (e1 ▸ h2)
    · refine Or.inr ⟨e1.trans e2, ?_⟩
      rcases h1 with h1 | ⟨f1, h1⟩
      · rcases h2 with h2 | ⟨f2, _⟩
        · exact Or.inl (lt_trans h1 h2)
        · exact Or.inl (f2 ▸ h1)
      · rcases h2 with h2 | ⟨f2, h2⟩
        · exact Or.inl (f1 ▸ h2)
        · exact Or.inr ⟨f1.trans f2, lt_trans h1 h2⟩

lemma recLt_asymm {a b : Rec} (h : recLt a b = true) : recLt b a = false := by
  by_contra hc
  have hba : recLt b a = true := by
    cases hh : recLt b a
    · exact absurd hh hc
    · rfl
  have := recLt_trans h hba
  rw [recLt_self] at this
  exact Bool.noConfusion this

/-- Trichotomy: if neither tuple is smaller than the other, they are equal. -/
lemma recLt_total {a b : Rec} (hab : recLt a b = false) (hba : recLt b a = false) :
    a = b := by
  rw [← Bool.not_eq_true, recLt_iff] at hab hba
  obtain ⟨a1, a2, a3⟩ := a
  obtain ⟨b1, b2, b3⟩ := b
  simp only at hab hba
  rcases lt_trichotomy a1 b1 with h | h | h
  · exact absurd (Or.inl h) hab
  · subst h
    rcases lt_trichotomy a2 b2 with h2 | h2 | h2
    · exact absurd (Or.inr ⟨rfl, Or.inl h2⟩) hab
    · subst h2
      rcases lt_trichotomy a3 b3 with h3 | h3 | h3
      · exact absurd (Or.inr ⟨rfl, Or.inr ⟨rfl, h3⟩⟩) hab
      · rw [h3]
      · exact absurd (Or.inr ⟨rfl, Or.inr ⟨rfl, h3⟩⟩) hba
    · exact absurd (Or.inr ⟨rfl, Or.inl h2⟩) hba
  · exact absurd (Or.inl h) hba

/-- Transitivity of the non-strict order `¬ (b < a)` (that is `a ≤ b`):
if `a ≤ b` and `b ≤ c` then `a ≤ c`. -/
lemma recLt_false_trans {a b c : Rec} (hba : recLt b a = false) (hcb : recLt c b = false) :
    recLt c a = false := by
  cases hca : recLt c a
  · rfl
  · exfalso
    cases hab : recLt a b
    · have := recLt_total hba hab
      subst this
      rw [hca] at hcb
      exact Bool.noConfusion hcb
    · have := recLt_trans hca hab
      rw [hcb] at this
      exact Bool.noConfusion this

/-- Mixed transitivity: `a ≤ b` and `b < c` imply `a < c`. -/
lemma recLt_true_of_false_of_true {a b c : Rec} (hba : recLt b a = false)
    (hbc : recLt b c = true) : recLt a c = true := by
  cases hab : recLt a b
  · have := recLt_total hba hab
    subst this
    exact hbc
  · exact recLt_trans hab hbc

/-! ### List index/update helper lemmas -/

lemma getD_set_ne {α : Type} {i j : ℕ} (hij : i ≠ j) (l : List α) (v d : α) :
    (l.set i v).getD j d = l.getD j d := by
  induction l generalizing i j with
  | nil => simp
  | cons a t ih =>
    cases i with
    | zero =>
      cases j with
      | zero => exact absurd rfl hij
      | succ j => simp [List.getD_cons_succ]
    | succ i =>
      cases j with
      | zero => simp [List.getD_cons_zero]
      | succ j =>
        simp only [List.set_cons_succ, List.getD_cons_succ]
        exact ih (fun h => hij (by rw [h]))

lemma getD_set_self {α : Type} {i : ℕ} {l : List α} (hi : i < l.length) (v d : α) :
    (l.set i v).getD i d = v := by
  induction l generalizing i with
  | nil => simp at hi
  | cons a t ih =>
    cases i with
    | zero => simp [List.getD_cons_zero]
    | succ i =>
      simp only [List.set_cons_succ, List.getD_cons_succ]
      exact ih (by simpa using hi)

lemma set_getD_self {α : Type} {i : ℕ} {l : List α} (hi : i < l.length) (d : α) :
    l.set i (l.getD i d) = l := by
  induction l generalizing i with
  | nil => simp at hi
  | cons a t ih =>
    cases i with
    | zero => simp [List.getD_cons_zero]
    | succ i =>
      simp only [List.getD_cons_succ, List.set_cons_succ]
      rw [ih (by simpa using hi)]

lemma getD_append_left {α : Type} {i : ℕ} {l : List α} (hi : i < l.length)
    (l' : List α) (d : α) : (l ++ l').getD i d = l.getD i d := by
  induction l generalizing i with
  | nil => simp at hi
  | cons a t ih =>
    cases i with
    | zero => simp [List.getD_cons_zero]
    | succ i =>
      simp only [List.cons_append, List.getD_cons_succ]
      exact ih (by simpa using hi)

lemma getD_append_length {α : Type} (l : List α) (v d : α) :
    (l ++ [v]).getD l.length d = v := by
  induction l with
  | nil => simp
  | cons a t ih => simp [List.getD_cons_succ, ih]

/-- Effect of `List.set` on element counts, stated addition-only so that
`omega` can combine instances of it. -/
lemma count_set {α : Type} [DecidableEq α] {j : ℕ} {l : List α} (hj : j < l.length)
    (v d x : α) :
    (l.set j v).count x + (if l.getD j d = x then 1 else 0) =
      l.count x + (if v = x then 1 else 0) := by
  induction l generalizing j with
  | nil => simp at hj
  | cons a t ih =>
    cases j with
    | zero =>
      simp only [List.set_cons_zero, List.getD_cons_zero, List.count_cons, beq_iff_eq]
      omega
    | succ j =>
      simp only [List.set_cons_succ, List.getD_cons_succ, List.count_cons, beq_iff_eq]
      have := ih (j := j) (by simpa using hj)
      omega

/-! ### The CPython `heapq` algorithms

Reproduced from CPython's `Lib/heapq.py` over `List Rec`.  The `while`
loops become recursion on an explicit fuel argument so that the
definitions are structurally recursive (hence kernel-reducible); the fuel
passed by the wrappers (`pos` for `_siftdown`, `len(heap)` for `_siftup`)
always suffices, so the fuel-exhausted branch is never taken. -/

/-- CPython `_siftdown(heap, startpos, pos)` loop: `newitem` was read from
`heap[pos]`; walk up the parent chain moving parents down until the parent
is not greater, then place `newitem`.  Each iteration strictly decreases
`pos`, so fuel `pos` suffices. -/
def siftdownFuel (startpos : ℕ) (newitem : Rec) : ℕ → ℕ → List Rec → List Rec
  | 0, pos, heap => heap.set pos newitem
  | fuel + 1, pos, heap =>
    if startpos < pos then
      let parentpos := (pos - 1) / 2
      let parent := heap.getD parentpos dRec
      if recLt newitem parent then
        siftdownFuel startpos newitem fuel parentpos (heap.set pos parent)
      else
        heap.set pos newitem
    else
      heap.set pos newitem

/-- CPython `_siftdown(heap, startpos, pos)`. -/
def siftdown (heap : List Rec) (startpos pos : ℕ) : List Rec :=
  siftdownFuel startpos (heap.getD pos dRec) pos pos heap

/-- CPython `_siftup(heap, pos)` loop: bubble the hole at `pos` down to a
leaf, always moving the smaller child up, then place `newitem` and sift it
back towards `startpos`.  Each iteration strictly increases `pos` while it
stays below `endpos`, so fuel `endpos` suffices. -/
def siftupFuel (endpos startpos : ℕ) (newitem : Rec) : ℕ → ℕ → List Rec → List Rec
  | 0, pos, heap => siftdownFuel startpos newitem pos pos (heap.set pos newitem)
  | fuel + 1, pos, heap =>
    let childpos := 2 * pos + 1
    if childpos < endpos then
      let rightpos := childpos + 1
      let childpos :=
        if rightpos < endpos ∧
            ¬ recLt (heap.getD childpos dRec) (heap.getD rightpos dRec) = true then
          rightpos
        else childpos
      siftupFuel endpos startpos newitem fuel childpos
        (heap.set pos (heap.getD childpos dRec))
    else
      siftdownFuel startpos newitem pos pos (heap.set pos newitem)

/-- CPython `_siftup(heap, pos)` (with `startpos = pos`, as in the
source). -/
def siftup (heap : List Rec) (pos : ℕ) : List Rec :=
  siftupFuel heap.length pos (heap.getD pos dRec) heap.length pos heap

/-- CPython `heappush(heap, item)`: append then `_siftdown(heap, 0,
len(heap)-1)`. -/
def heappush (heap : List Rec) (item : Rec) : List Rec :=
  siftdown (heap ++ [item]) 0 heap.length

/-- CPython `heappushpop(heap, item)`: `if heap and heap[0] < item:` swap
the root with `item` and `_siftup(heap, 0)`; return the popped item and
the new heap. -/
def heappushpop (heap : List Rec) (item : Rec) : Rec × List Rec :=
  if 0 < heap.length ∧ recLt (heap.getD 0 dRec) item = true then
    (heap.getD 0 dRec, siftup (heap.set 0 item) 0)
  else
    (item, heap)

/-! ### Heap size and multiset lemmas -/

lemma siftdownFuel_length (startpos : ℕ) (newitem : Rec) :
    ∀ fuel pos heap, (siftdownFuel startpos newitem fuel pos heap).length = heap.length := by
  intro fuel
  induction fuel with
  | zero => intro pos heap; simp [siftdownFuel]
  | succ fuel ih =>
    intro pos heap
    simp only [siftdownFuel]
    split
    · split
      · rw [ih]; simp
      · simp
    · simp

lemma siftupFuel_length (endpos startpos : ℕ) (newitem : Rec) :
    ∀ fuel pos heap, (siftupFuel endpos startpos newitem fuel pos heap).length = heap.length := by
  intro fuel
  induction fuel with
  | zero => intro pos heap; simp [siftupFuel, siftdownFuel_length]
  | succ fuel ih =>
    intro pos heap
    simp only [siftupFuel]
    split
    · rw [ih]; simp
    · rw [siftdownFuel_length]; simp

lemma heappush_length (heap : List Rec) (item : Rec) :
    (heappush heap item).length = heap.length + 1 := by
  simp [heappush, siftdown, siftdownFuel_length]

lemma heappushpop_length (heap : List Rec) (item : Rec) :
    (heappushpop heap item).2.length = heap.length := by
  unfold heappushpop
  split
  · simp [siftup, siftupFuel_length]
  · rfl

lemma siftdownFuel_perm (newitem : Rec) :
    ∀ fuel pos heap, pos < heap.length →
      List.Perm (siftdownFuel 0 newitem fuel pos heap) (heap.set pos newitem) := by
  intro fuel
  induction fuel with
  | zero => intro pos heap _; exact List.Perm.refl _
  | succ fuel ih =>
    intro pos heap hpos
    simp only [siftdownFuel]
    split
    · split
      · rename_i hgt _
        have hpp : (pos - 1) / 2 < pos := by omega
        have h1 : List.Perm
            (siftdownFuel 0 newitem fuel ((pos - 1) / 2) (heap.set pos (heap.getD ((pos - 1) / 2) dRec)))
            ((heap.set pos (heap.getD ((pos - 1) / 2) dRec)).set ((pos - 1) / 2) newitem) :=
          ih _ _ (by simp; omega)
        refine h1.trans ?_
        rw [List.perm_iff_count]
        intro x
        have hne : pos ≠ (pos - 1) / 2 := by omega
        have c1 := count_set (l := heap.set pos (heap.getD ((pos - 1) / 2) dRec))
          (j := (pos - 1) / 2) (by simp; omega) newitem dRec x
        rw [getD_set_ne hne] at c1
        have c2 := count_set (l := heap) (j := pos) hpos (heap.getD ((pos - 1) / 2) dRec) dRec x
        have c3 := count_set (l := heap) (j := pos) hpos newitem dRec x
        by_cases e1 : heap.getD ((pos - 1) / 2) dRec = x <;>
          by_cases e2 : heap.getD pos dRec = x <;>
          by_cases e3 : newitem = x <;>
          simp [e1, e2, e3] at c1 c2 c3 ⊢ <;> omega
      · exact List.Perm.refl _
    · exact List.Perm.refl _

lemma siftupFuel_perm (endpos : ℕ) (newitem : Rec) :
    ∀ fuel pos heap, pos < heap.length → endpos ≤ heap.length →
      List.Perm (siftupFuel endpos 0 newitem fuel pos heap) (heap.set pos newitem) := by
  intro fuel
  induction fuel with
  | zero =>
    intro pos heap hpos _
    refine (siftdownFuel_perm newitem _ _ _ (by simpa using hpos)).trans ?_
    rw [List.set_set]
  | succ fuel ih =>
    intro pos heap hpos hend
    simp only [siftupFuel]
    split
    · rename_i hchild
      set cp := if 2 * pos + 1 + 1 < endpos ∧
          ¬ recLt (heap.getD (2 * pos + 1) dRec) (heap.getD (2 * pos + 1 + 1) dRec) = true then
          2 * pos + 1 + 1
        else 2 * pos + 1 with hcp
      have hcplt : cp < endpos := by
        rw [hcp]; split <;> omega
      have hcppos : pos < cp := by
        rw [hcp]; split <;> omega
      have h1 : List.Perm
          (siftupFuel endpos 0 newitem fuel cp (heap.set pos (heap.getD cp dRec)))
          ((heap.set pos (heap.getD cp dRec)).set cp newitem) :=
        ih _ _ (by simp; omega) (by simpa using hend)
      refine h1.trans ?_
      rw [List.perm_iff_count]
      intro x
      have hne : pos ≠ cp := by omega
      have c1 := count_set (l := heap.set pos (heap.getD cp dRec)) (j := cp)
        (by simp; omega) newitem dRec x
      rw [getD_set_ne hne] at c1
      have c2 := count_set (l := heap) (j := pos) hpos (heap.getD cp dRec) dRec x
      have c3 := count_set (l := heap) (j := pos) hpos newitem dRec x
      by_cases e1 : heap.getD cp dRec = x <;>
        by_cases e2 : heap.getD pos dRec = x <;>
        by_cases e3 : newitem = x <;>
        simp [e1, e2, e3] at c1 c2 c3 ⊢ <;> omega
    · refine (siftdownFuel_perm newitem _ _ _ (by simpa using hpos)).trans ?_
      rw [List.set_set]

lemma set_append_length {α : Type} (l : List α) (v : α) :
    (l ++ [v]).set l.length v = l ++ [v] := by
  induction l with
  | nil => rfl
  | cons a t ih => simp [ih]

lemma heappush_perm (heap : List Rec) (item : Rec) :
    List.Perm (heappush heap item) (heap ++ [item]) := by
  unfold heappush siftdown
  rw [getD_append_length]
  have h1 := siftdownFuel_perm item heap.length heap.length (heap ++ [item]) (by simp)
  rw [set_append_length] at h1
  exact h1

lemma heappushpop_perm_of_swap (heap : List Rec) (item : Rec)
    (h : 0 < heap.length ∧ recLt (heap.getD 0 dRec) item = true) :
    List.Perm (heappushpop heap item).2 (heap.set 0 item) := by
  unfold heappushpop
  rw [if_pos h]
  unfold siftup
  have h0 : (heap.set 0 item).getD 0 dRec = item := getD_set_self h.1 item dRec
  rw [h0]
  have h1 := siftupFuel_perm (heap.set 0 item).length item (heap.set 0 item).length 0
    (heap.set 0 item) (by simpa using h.1) (le_refl _)
  rw [List.set_set] at h1
  exact h1

/-! ### The binary min-heap invariant

Index `i`'s children sit at `2*i+1` and `2*i+2` (CPython's layout).  A
list is a heap when no child compares strictly below its parent. -/

/-- Parent/child index relation of the implicit binary tree. -/
def childEdge (i j : ℕ) : Prop := j = 2 * i + 1 ∨ j = 2 * i + 2

/-- The `heapq` invariant: every in-range child is `≥` its parent in the
tuple order. -/
def IsHeap (l : List Rec) : Prop :=
  ∀ i j, childEdge i j → j < l.length → recLt (l.getD j dRec) (l.getD i dRec) = false

lemma isHeap_nil : IsHeap [] := by
  intro i j _ hj
  simp at hj

lemma mem_iff_getD {α : Type} {l : List α} {x : α} (d : α) :
    x ∈ l ↔ ∃ i, i < l.length ∧ l.getD i d = x := by
  induction l with
  | nil => simp
  | cons a t ih =>
    constructor
    · intro hx
      rcases List.mem_cons.1 hx with rfl | hx
      · exact ⟨0, by simp, rfl⟩
      · obtain ⟨i, hi, hd⟩ := ih.1 hx
        exact ⟨i + 1, by simpa using hi, by simpa [List.getD_cons_succ] using hd⟩
    · rintro ⟨i, hi, rfl⟩
      cases i with
      | zero => simp [List.getD_cons_zero]
      | succ i =>
        simp only [List.getD_cons_succ]
        exact List.mem_cons_of_mem a (ih.2 ⟨i, by simpa using hi, rfl⟩)

/-- Walking up the parent chain: in a heap every element is `≥` the root. -/
lemma isHeap_le_root (l : List Rec) (hl : IsHeap l) :
    ∀ i, i < l.length → recLt (l.getD i dRec) (l.getD 0 dRec) = false := by
  intro i
  induction i using Nat.strong_induction_on with
  | _ i ih =>
    intro hi
    rcases Nat.eq_zero_or_pos i with rfl | hipos
    · exact recLt_self _
    · have hp : (i - 1) / 2 < i := by omega
      have hedge : childEdge ((i - 1) / 2) i := by
        unfold childEdge; omega
      have h1 := hl _ _ hedge hi
      have h2 := ih _ hp (lt_trans hp hi)
      exact recLt_false_trans h2 h1

/-- `m` is a least element of `l` in the tuple order. -/
@[reducible] def isMinOf (m : Rec) (l : List Rec) : Prop :=
  m ∈ l ∧ ∀ x ∈ l, recLt x m = false

lemma isHeap_root_isMin {l : List Rec} (hl : IsHeap l) (h0 : 0 < l.length) :
    isMinOf (l.getD 0 dRec) l := by
  refine ⟨(mem_iff_getD dRec).2 ⟨0, h0, rfl⟩, ?_⟩
  intro x hx
  obtain ⟨i, hi, rfl⟩ := (mem_iff_getD dRec).1 hx
  exact isHeap_le_root l hl i hi

lemma isMinOf_unique {m m' : Rec} {l : List Rec} (h : isMinOf m l)
    (h' : isMinOf m' l) : m = m' :=
  recLt_total (h'.2 m h.1) (h.2 m' h'.1)

/-- Placing `newitem` at the hole `pos` keeps the heap shape, given the
heap property away from the hole, below the hole, and towards the hole's
parent. -/
lemma isHeap_set_hole (heap : List Rec) (pos : ℕ) (newitem : Rec)
    (hpos : pos < heap.length)
    (ha : ∀ i j, childEdge i j → j < heap.length → i ≠ pos → j ≠ pos →
      recLt (heap.getD j dRec) (heap.getD i dRec) = false)
    (hb : ∀ j, childEdge pos j → j < heap.length →
      recLt (heap.getD j dRec) newitem = false)
    (hparent : pos ≠ 0 → recLt newitem (heap.getD ((pos - 1) / 2) dRec) = false) :
    IsHeap (heap.set pos newitem) := by
  intro i j hedge hj
  rw [List.length_set] at hj
  by_cases hip : i = pos
  · subst hip
    have hjp : j ≠ i := by rcases hedge with h | h <;> omega
    rw [getD_set_self hpos, getD_set_ne (fun h => hjp h.symm)]
    exact hb j hedge hj
  · by_cases hjp : j = pos
    · subst hjp
      have hj0 : j ≠ 0 := by rcases hedge with h | h <;> omega
      have hipar : i = (j - 1) / 2 := by rcases hedge with h | h <;> omega
      rw [getD_set_self hpos, getD_set_ne (fun h => hip h.symm)]
      rw [hipar]
      exact hparent hj0
    · rw [getD_set_ne (fun h => hjp h.symm), getD_set_ne (fun h => hip h.symm)]
      exact ha i j hedge hj hip hjp

/-- The `_siftdown` loop produces a heap, provided the array is a heap
except at the hole `pos`, everything below the hole is `≥ newitem`, and
everything below the hole is `≥` the hole's parent. -/
lemma siftdownFuel_isHeap (newitem : Rec) :
    ∀ fuel pos heap,
      pos ≤ fuel → pos < heap.length →
      (∀ i j, childEdge i j → j < heap.length → i ≠ pos → j ≠ pos →
        recLt (heap.getD j dRec) (heap.getD i dRec) = false) →
      (∀ j, childEdge pos j → j < heap.length →
        recLt (heap.getD j dRec) newitem = false) →
      (pos ≠ 0 → ∀ j, childEdge pos j → j < heap.length →
        recLt (heap.getD j dRec) (heap.getD ((pos - 1) / 2) dRec) = false) →
      IsHeap (siftdownFuel 0 newitem fuel pos heap) := by
  intro fuel
  induction fuel with
  | zero =>
    intro pos heap hfuel hpos ha hb _
    have : pos = 0 := by omega
    subst this
    exact isHeap_set_hole heap 0 newitem hpos ha hb (fun h => absurd rfl h)
  | succ fuel ih =>
    intro pos heap hfuel hpos ha hb hc
    simp only [siftdownFuel]
    split
    · rename_i hpos0
      split
      · rename_i hlt
        set pp := (pos - 1) / 2 with hpp
        have hpplt : pp < pos := by omega
        have hpplen : pp < heap.length := lt_trans hpplt hpos
        refine ih pp (heap.set pos (heap.getD pp dRec)) (by omega)
          (by rw [List.length_set]; exact hpplen) ?_ ?_ ?_
        · -- heap away from the new hole `pp`
          intro i j hedge hj hi' hj'
          rw [List.length_set] at hj
          by_cases hjp : j = pos
          · subst hjp
            have : i = pp := by rcases hedge with h | h <;> omega
            exact absurd this hi'
          · by_cases hip : i = pos
            · subst hip
              rw [getD_set_self hpos, getD_set_ne (fun h => hjp h.symm)]
              exact hc (by omega) j hedge hj
            · rw [getD_set_ne (fun h => hjp h.symm), getD_set_ne (fun h => hip h.symm)]
              exact ha i j hedge hj hip hjp
        · -- everything below the new hole is `≥ newitem`
          intro j hedge hj
          rw [List.length_set] at hj
          by_cases hjp : j = pos
          · subst hjp
            rw [getD_set_self hpos]
            exact recLt_asymm hlt
          · rw [getD_set_ne (fun h => hjp h.symm)]
            have hj1 := ha pp j hedge hj (by omega) hjp
            cases hcon : recLt (heap.getD j dRec) newitem
            · rfl
            · exfalso
              have := recLt_trans hcon hlt
              rw [hj1] at this
              exact Bool.noConfusion this
        · -- everything below the new hole is `≥` its parent
          intro hpp0 j hedge hj
          rw [List.length_set] at hj
          have hgp : (pp - 1) / 2 ≠ pos := by omega
          rw [getD_set_ne (fun h => hgp h.symm)]
          have hedgepp : childEdge ((pp - 1) / 2) pp := by
            unfold childEdge; omega
          have h2 := ha _ _ hedgepp hpplen (by omega) (by omega)
          by_cases hjp : j = pos
          · subst hjp
            rw [getD_set_self hpos]
            exact h2
          · rw [getD_set_ne (fun h => hjp h.symm)]
            have h1 := ha pp j hedge hj (by omega) hjp
            exact recLt_false_trans h2 h1
      · rename_i hlt
        refine isHeap_set_hole heap pos newitem hpos ha hb ?_
        intro _
        simpa using hlt
    · rename_i hpos0
      have : pos = 0 := by omega
      subst this
      exact isHeap_set_hole heap 0 newitem hpos ha hb (fun h => absurd rfl h)

/-- The `_siftup` descend-then-sift-back loop produces a heap, provided
the array is a heap except at the hole `pos` and everything below the
hole is `≥` the hole's parent. -/
lemma siftupFuel_isHeap (newitem : Rec) (endpos : ℕ) :
    ∀ fuel pos heap,
      endpos = heap.length →
      heap.length ≤ fuel + pos →
      pos < heap.length →
      (∀ i j, childEdge i j → j < heap.length → i ≠ pos → j ≠ pos →
        recLt (heap.getD j dRec) (heap.getD i dRec) = false) →
      (pos ≠ 0 → ∀ j, childEdge pos j → j < heap.length →
        recLt (heap.getD j dRec) (heap.getD ((pos - 1) / 2) dRec) = false) →
      IsHeap (siftupFuel endpos 0 newitem fuel pos heap) := by
  intro fuel
  induction fuel with
  | zero =>
    intro pos heap hend hfuel hpos _ _
    exfalso
    omega
  | succ fuel ih =>
    intro pos heap hend hfuel hpos ha hc
    simp only [siftupFuel]
    split
    · rename_i hchild
      set cp := if 2 * pos + 1 + 1 < endpos ∧
          ¬ recLt (heap.getD (2 * pos + 1) dRec) (heap.getD (2 * pos + 1 + 1) dRec) = true then
          2 * pos + 1 + 1
        else 2 * pos + 1 with hcpdef
      have hcpedge : childEdge pos cp := by
        rw [hcpdef]; unfold childEdge; split <;> omega
      have hcplt : cp < endpos := by rw [hcpdef]; split <;> omega
      have hcplen : cp < heap.length := by omega
      have hcppos : pos < cp := by rw [hcpdef]; split <;> omega
      -- the chosen child is `≤` its sibling (when the sibling is in range)
      have hsib : ∀ j, childEdge pos j → j < heap.length → j ≠ cp →
          recLt (heap.getD j dRec) (heap.getD cp dRec) = false := by
        intro j hedge hj hjcp
        by_cases hcond : 2 * pos + 1 + 1 < endpos ∧
            ¬ recLt (heap.getD (2 * pos + 1) dRec) (heap.getD (2 * pos + 1 + 1) dRec) = true
        · rw [hcpdef, if_pos hcond] at hjcp ⊢
          have : j = 2 * pos + 1 := by
            rcases hedge with h | h
            · exact h
            · exact absurd h hjcp
          subst this
          simpa using hcond.2
        · rw [hcpdef, if_neg hcond] at hjcp ⊢
          have : j = 2 * pos + 2 := by
            rcases hedge with h | h
            · exact absurd h hjcp
            · exact h
          subst this
          rw [Classical.not_and_iff_or_not_not] at hcond
          rcases hcond with h | h
          · exfalso; omega
          · have : recLt (heap.getD (2 * pos + 1) dRec) (heap.getD (2 * pos + 1 + 1) dRec) = true := by
              cases hx : recLt (heap.getD (2 * pos + 1) dRec) (heap.getD (2 * pos + 1 + 1) dRec)
              · exact absurd (by rw [hx]; exact fun hcon => Bool.noConfusion hcon) h
              · rfl
            exact recLt_asymm this
      refine ih cp (heap.set pos (heap.getD cp dRec))
        (by rw [List.length_set]; exact hend)
        (by rw [List.length_set]; omega)
        (by rw [List.length_set]; exact hcplen) ?_ ?_
      · -- heap away from the new hole `cp`
        intro i j hedge hj hi' hj'
        rw [List.length_set] at hj
        by_cases hjp : j = pos
        · subst hjp
          have hj0 : j ≠ 0 := by rcases hedge with h | h <;> omega
          have hipar : i = (j - 1) / 2 := by rcases hedge with h | h <;> omega
          have hip : i ≠ j := by rcases hedge with h | h <;> omega
          rw [getD_set_self hpos, getD_set_ne (fun h => hip h.symm)]
          rw [hipar]
          exact hc hj0 cp hcpedge hcplen
        · by_cases hip : i = pos
          · subst hip
            rw [getD_set_self hpos, getD_set_ne (fun h => hjp h.symm)]
            exact hsib j hedge hj hj'
          · rw [getD_set_ne (fun h => hjp h.symm), getD_set_ne (fun h => hip h.symm)]
            exact ha i j hedge hj hip hjp
      · -- everything below the new hole `cp` is `≥` its parent `pos`
        intro _ j hedge hj
        rw [List.length_set] at hj
        have hparcp : (cp - 1) / 2 = pos := by
          rcases hcpedge with h | h <;> omega
        have hjne : j ≠ pos := by rcases hedge with h | h <;> omega
        have hjnecp : j ≠ cp := by rcases hedge with h | h <;> omega
        rw [hparcp, getD_set_self hpos, getD_set_ne (fun h => hjne h.symm)]
        exact ha cp j hedge hj (by omega) hjne
    · rename_i hchild
      refine siftdownFuel_isHeap newitem pos pos (heap.set pos newitem) (le_refl _)
        (by rw [List.length_set]; exact hpos) ?_ ?_ ?_
      · intro i j hedge hj hi' hj'
        rw [List.length_set] at hj
        rw [getD_set_ne (fun h => hj' h.symm), getD_set_ne (fun h => hi' h.symm)]
        exact ha i j hedge hj hi' hj'
      · intro j hedge hj
        rw [List.length_set] at hj
        exfalso
        rcases hedge with h | h <;> omega
      · intro _ j hedge hj
        rw [List.length_set] at hj
        exfalso
        rcases hedge with h | h <;> omega

/-- `heappush` preserves the heap invariant. -/
lemma heappush_isHeap (heap : List Rec) (item : Rec) (h : IsHeap heap) :
    IsHeap (heappush heap item) := by
  unfold heappush siftdown
  rw [getD_append_length]
  refine siftdownFuel_isHeap item heap.length heap.length (heap ++ [item])
    (le_refl _) (by simp) ?_ ?_ ?_
  · intro i j hedge hj hi' hj'
    rw [List.length_append, List.length_singleton] at hj
    have hij : i < j := by rcases hedge with hh | hh <;> omega
    have hjlen : j < heap.length := by omega
    rw [getD_append_left hjlen, getD_append_left (by omega)]
    exact h i j hedge hjlen
  · intro j hedge hj
    exfalso
    rw [List.length_append, List.length_singleton] at hj
    rcases hedge with hh | hh <;> omega
  · intro _ j hedge hj
    exfalso
    rw [List.length_append, List.length_singleton] at hj
    rcases hedge with hh | hh <;> omega

/-- `heappushpop` preserves the heap invariant. -/
lemma heappushpop_isHeap (heap : List Rec) (item : Rec) (h : IsHeap heap) :
    IsHeap (heappushpop heap item).2 := by
  unfold heappushpop
  split
  · rename_i hcond
    unfold siftup
    rw [getD_set_self hcond.1]
    refine siftupFuel_isHeap item (heap.set 0 item).length (heap.set 0 item).length 0
      (heap.set 0 item) rfl (by omega) (by rw [List.length_set]; exact hcond.1) ?_ ?_
    · intro i j hedge hj hi' hj'
      rw [List.length_set] at hj
      rw [getD_set_ne (fun hh => hj' hh.symm), getD_set_ne (fun hh => hi' hh.symm)]
      exact h i j hedge hj
    · intro h0 _ _ _
      exact absurd rfl h0
  · exact h

/-! ### String utilities

Models of the Python string operations the callback uses:
`'%d'`-style decimal rendering, `str.format` restricted to the
`\x7bepoch:d\x7d` field injected by the constructor, `os.path.split`,
`os.path.splitext`, `os.path.join`, substring membership (`in`) and
`str.startswith`. -/

/-- Decimal digits of `n`, most significant first, accumulator-style with
fuel (`n + 1` always suffices).  Models Python decimal formatting of a
non-negative integer. -/
def decimalRenderAux : ℕ → ℕ → List Char → List Char
  | 0, _, acc => acc
  | fuel + 1, n, acc =>
    if n < 10 then Nat.digitChar n :: acc
    else decimalRenderAux fuel (n / 10) (Nat.digitChar (n % 10) :: acc)

/-- Decimal rendering of `n` (model of Python `'\x7b:d\x7d'.format(n)`). -/
def decimalRender (n : ℕ) : List Char := decimalRenderAux (n + 1) n []

lemma decimalRenderAux_acc :
    ∀ fuel n acc, decimalRenderAux fuel n acc = decimalRenderAux fuel n [] ++ acc := by
  intro fuel
  induction fuel with
  | zero => intro n acc; rfl
  | succ fuel ih =>
    intro n acc
    simp only [decimalRenderAux]
    split
    · rfl
    · rw [ih (n / 10) (Nat.digitChar (n % 10) :: acc), ih (n / 10) [Nat.digitChar (n % 10)]]
      simp

lemma decimalRenderAux_fuel :
    ∀ n f1 f2 acc, n < f1 → n < f2 →
      decimalRenderAux f1 n acc = decimalRenderAux f2 n acc := by
  intro n
  induction n using Nat.strong_induction_on with
  | _ n ih =>
    intro f1 f2 acc h1 h2
    obtain ⟨g1, rfl⟩ : ∃ g, f1 = g + 1 := ⟨f1 - 1, by omega⟩
    obtain ⟨g2, rfl⟩ : ∃ g, f2 = g + 1 := ⟨f2 - 1, by omega⟩
    simp only [decimalRenderAux]
    split
    · rfl
    · rename_i hge
      exact ih (n / 10) (by omega) g1 g2 _ (by omega) (by omega)

/-- The defining recursion of `decimalRender`, independent of fuel. -/
lemma decimalRender_eq (n : ℕ) :
    decimalRender n =
      if n < 10 then [Nat.digitChar n]
      else decimalRender (n / 10) ++ [Nat.digitChar (n % 10)] := by
  unfold decimalRender
  conv_lhs => rw [decimalRenderAux]
  by_cases h : n < 10
  · simp only [if_pos h]
  · simp only [if_neg h]
    rw [decimalRenderAux_acc]
    rw [decimalRenderAux_fuel (n / 10) n (n / 10 + 1) [] (by omega) (by omega)]

lemma decimalRender_ne_nil (n : ℕ) : decimalRender n ≠ [] := by
  rw [decimalRender_eq]
  split
  · simp
  · simp

lemma digitChar_inj_lt :
    ∀ a, a < 10 → ∀ b, b < 10 → Nat.digitChar a = Nat.digitChar b → a = b := by
  decide

lemma append_singleton_inj {α : Type} {xs ys : List α} {x y : α}
    (h : xs ++ [x] = ys ++ [y]) : xs = ys ∧ x = y := by
  have h1 := congrArg List.reverse h
  simp only [List.reverse_append, List.reverse_singleton, List.singleton_append] at h1
  obtain ⟨hxy, hrev⟩ := List.cons.inj h1
  refine ⟨?_, hxy⟩
  have := congrArg List.reverse hrev
  simpa using this

/-- Decimal rendering is injective. -/
lemma decimalRender_inj : ∀ {a b : ℕ}, decimalRender a = decimalRender b → a = b := by
  intro a
  induction a using Nat.strong_induction_on with
  | _ a ih =>
    intro b h
    rw [decimalRender_eq a, decimalRender_eq b] at h
    by_cases ha : a < 10 <;> by_cases hb : b < 10
    · rw [if_pos ha, if_pos hb] at h
      exact digitChar_inj_lt a ha b hb (List.singleton_inj.1 h)
    · rw [if_pos ha, if_neg hb] at h
      exfalso
      have hlen := congrArg List.length h
      simp only [List.length_singleton, List.length_append] at hlen
      have h0 : (decimalRender (b / 10)).length = 0 := by omega
      exact decimalRender_ne_nil (b / 10) (List.length_eq_zero.1 h0)
    · rw [if_neg ha, if_pos hb] at h
      exfalso
      have hlen := congrArg List.length h
      simp only [List.length_singleton, List.length_append] at hlen
      have h0 : (decimalRender (a / 10)).length = 0 := by omega
      exact decimalRender_ne_nil (a / 10) (List.length_eq_zero.1 h0)
    · rw [if_neg ha, if_neg hb] at h
      obtain ⟨hinit, hlast⟩ := append_singleton_inj h
      have h1 : a / 10 = b / 10 := ih (a / 10) (by omega) hinit
      have h2 : a % 10 = b % 10 :=
        digitChar_inj_lt (a % 10) (by omega) (b % 10) (by omega) hlast
      omega

/-- Left-to-right, non-overlapping replace-all with fuel (`s.length`
always suffices since every step consumes at least one character).
Models Python template substitution for the field `pat`. -/
def replaceAllFuel (pat rep : List Char) : ℕ → List Char → List Char
  | 0, s => s
  | _ + 1, [] => []
  | fuel + 1, c :: cs =>
    if pat ≠ [] ∧ pat.isPrefixOf (c :: cs) = true then
      rep ++ replaceAllFuel pat rep fuel (List.drop pat.length (c :: cs))
    else
      c :: replaceAllFuel pat rep fuel cs

def replaceAll (pat rep s : List Char) : List Char :=
  replaceAllFuel pat rep s.length s

/-- The literal replacement field `\x7bepoch:d\x7d` that the constructor
splices into the file path template. -/
def epochField : List Char := "\x7bepoch:d\x7d".data

/-- Model of `self.filepath.format(epoch=epoch+1, **logs)` for templates
whose only replacement field is the constructor-injected
`\x7bepoch:d\x7d`: substitute the decimal rendering of the epoch for each
occurrence of the field. -/
def formatPath (template : String) (epoch : ℕ) : String :=
  ⟨replaceAll epochField (decimalRender epoch) template.data⟩

lemma isPrefixOf_self_append {α : Type} [BEq α] [LawfulBEq α] (l rest : List α) :
    l.isPrefixOf (l ++ rest) = true := by
  induction l with
  | nil => simp [List.isPrefixOf]
  | cons a t ih => simp [List.isPrefixOf, ih]

lemma replaceAllFuel_no_match (pat rep : List Char) (c0 : Char) (p' : List Char)
    (hpat : pat = c0 :: p') :
    ∀ fuel s, c0 ∉ s → replaceAllFuel pat rep fuel s = s := by
  intro fuel
  induction fuel with
  | zero => intro s _; rfl
  | succ fuel ih =>
    intro s hs
    cases s with
    | nil => rfl
    | cons c cs =>
      have hc : c0 ≠ c := fun h => hs (h ▸ List.mem_cons_self c cs)
      have hbeq : (c0 == c) = false := beq_eq_false_iff_ne.2 hc
      have hpre : pat.isPrefixOf (c :: cs) = false := by
        rw [hpat]
        simp [List.isPrefixOf, hbeq]
      simp only [replaceAllFuel, hpre]
      simp only [Bool.false_eq_true, and_false, if_false]
      rw [ih cs (fun h => hs (List.mem_cons_of_mem c h))]

lemma replaceAllFuel_structure (pat rep : List Char) (c0 : Char) (p' : List Char)
    (hpat : pat = c0 :: p') :
    ∀ pre fuel post, c0 ∉ pre → c0 ∉ post → pre.length < fuel →
      replaceAllFuel pat rep fuel (pre ++ pat ++ post) = pre ++ rep ++ post := by
  intro pre
  induction pre with
  | nil =>
    intro fuel post _ hpost hfuel
    obtain ⟨f, rfl⟩ : ∃ f, fuel = f + 1 := ⟨fuel - 1, by omega⟩
    have hne : pat ≠ [] := by rw [hpat]; simp
    simp only [List.nil_append]
    cases hp : pat ++ post with
    | nil => rw [hpat] at hp; simp at hp
    | cons c cs =>
      simp only [replaceAllFuel]
      rw [if_pos ⟨hne, by rw [← hp]; exact isPrefixOf_self_append pat post⟩]
      rw [← hp, List.drop_left]
      rw [replaceAllFuel_no_match pat rep c0 p' hpat f post hpost]
  | cons c pre' ih =>
    intro fuel post hpre hpost hfuel
    obtain ⟨f, rfl⟩ : ∃ f, fuel = f + 1 := ⟨fuel - 1, by omega⟩
    have hc : c0 ≠ c := fun h => hpre (h ▸ List.mem_cons_self c pre')
    have hbeq : (c0 == c) = false := beq_eq_false_iff_ne.2 hc
    have hstep : (c :: pre') ++ pat ++ post = c :: (pre' ++ pat ++ post) := by simp
    rw [hstep]
    have hprefix : pat.isPrefixOf (c :: (pre' ++ pat ++ post)) = false := by
      rw [hpat]
      simp [List.isPrefixOf, hbeq]
    simp only [replaceAllFuel, hprefix]
    simp only [Bool.false_eq_true, and_false, if_false]
    rw [ih f post (fun h => hpre (List.mem_cons_of_mem c h)) hpost (by simpa using hfuel)]
    simp

/-- `formatPath` on a template whose only brace is the epoch field:
the result is the template with the decimal epoch spliced in. -/
lemma formatPath_structure (pre post : List Char) (e : ℕ)
    (hpre : Char.ofNat 123 ∉ pre) (hpost : Char.ofNat 123 ∉ post) :
    (formatPath ⟨pre ++ epochField ++ post⟩ e).data =
      pre ++ decimalRender e ++ post := by
  unfold formatPath replaceAll
  exact replaceAllFuel_structure epochField (decimalRender e) (Char.ofNat 123)
    (epochField.drop 1) (by decide) pre _ post hpre hpost (by simp [epochField])

/-- Distinct epochs resolve to distinct paths when the template's only
replacement field is the epoch field. -/
lemma formatPath_inj (pre post : List Char)
    (hpre : Char.ofNat 123 ∉ pre) (hpost : Char.ofNat 123 ∉ post) {a b : ℕ}
    (h : formatPath ⟨pre ++ epochField ++ post⟩ a =
      formatPath ⟨pre ++ epochField ++ post⟩ b) : a = b := by
  have hd := congrArg String.data h
  rw [formatPath_structure pre post a hpre hpost,
    formatPath_structure pre post b hpre hpost] at hd
  rw [List.append_assoc pre (decimalRender a) post,
    List.append_assoc pre (decimalRender b) post] at hd
  have h1 : decimalRender a ++ post = decimalRender b ++ post :=
    List.append_cancel_left hd
  have h2 : decimalRender a = decimalRender b := List.append_cancel_right h1
  exact decimalRender_inj h2

/-- Index of the last occurrence of `c` in `s` (Python `str.rfind`,
restricted to single-character needles). -/
def rfindIdx (c : Char) : List Char → Option ℕ
  | [] => none
  | a :: t =>
    match rfindIdx c t with
    | some i => some (i + 1)
    | none => if a = c then some 0 else none

/-- Model of `posixpath.split`: split at the last slash, then strip
trailing slashes from the head unless the head is all slashes. -/
def osPathSplit (p : String) : String × String :=
  let s := p.data
  let i := match rfindIdx (Char.ofNat 47) s with
    | some k => k + 1
    | none => 0
  let head := s.take i
  let tail := s.drop i
  let head :=
    if head ≠ [] ∧ head.any (fun ch => decide (ch ≠ Char.ofNat 47)) then
      (head.reverse.dropWhile (fun ch => decide (ch = Char.ofNat 47))).reverse
    else head
  (⟨head⟩, ⟨tail⟩)

/-- Model of `posixpath.splitext`: split the extension at the last dot,
except that leading dots of the basename do not start an extension. -/
def osPathSplitext (p : String) : String × String :=
  let s := p.data
  let sepIndex : ℤ := match rfindIdx (Char.ofNat 47) s with
    | some k => (k : ℤ)
    | none => -1
  let dotIndex : ℤ := match rfindIdx (Char.ofNat 46) s with
    | some k => (k : ℤ)
    | none => -1
  if sepIndex < dotIndex then
    let d := dotIndex.toNat
    let filenameIndex := (sepIndex + 1).toNat
    if ((s.drop filenameIndex).take (d - filenameIndex)).any
        (fun ch => decide (ch ≠ Char.ofNat 46)) then
      (⟨s.take d⟩, ⟨s.drop d⟩)
    else (p, "")
  else (p, "")

/-- Model of `posixpath.join` for a single right operand. -/
def osPathJoin (a b : String) : String :=
  if b.data.head? = some (Char.ofNat 47) then b
  else if a.data = [] ∨ a.data.getLast? = some (Char.ofNat 47) then ⟨a.data ++ b.data⟩
  else ⟨a.data ++ Char.ofNat 47 :: b.data⟩

/-- Python substring membership `pat in s`. -/
def containsSubL (pat : List Char) : List Char → Bool
  | [] => pat.isPrefixOf []
  | c :: cs => pat.isPrefixOf (c :: cs) || containsSubL pat cs

def containsSub (pat s : String) : Bool := containsSubL pat.data s.data

/-! ### The callback state and its operations

Direct embedding of `ModelCheckpointTopN.__init__` and
`ModelCheckpointTopN.on_epoch_end`.  Side effects (warnings, `os.remove`,
`model.save`, `model.save_weights`) are returned as an event list in
program order; `verbose` printing is not an observable effect of the
spec and is not modelled. -/

/-- Observable side effects of the callback. -/
inductive Event : Type where
  | warnUnknownMode (mode : String)
  | warnMissingMetric (monitor : String)
  | removeFile (path : String)
  | saveModel (path : String)
  | saveModelWeights (path : String)
deriving DecidableEq

/-- The instance attributes of `ModelCheckpointTopN` set by `__init__`. -/
structure State : Type where
  monitor : String
  verbose : ℕ
  filepath : String
  n_models : ℕ
  save_weights_only : Bool
  period : ℕ
  epochs_since_last_save : ℕ
  tracker : List Rec
  coef : ℚ
deriving DecidableEq

/-- `__init__(filepath, monitor, verbose, n_models, save_weights_only,
mode, period)`: rewrite the file path template by splicing
`_\x7bepoch:d\x7d` between base name and extension, fall back to `auto`
on an unknown mode (with a warning), and fix the direction coefficient. -/
def init (filepath monitor : String) (verbose n_models : ℕ)
    (save_weights_only : Bool) (mode : String) (period : ℕ) : State × List Event :=
  let ht := osPathSplit filepath
  let me := osPathSplitext ht.2
  let fp : String := osPathJoin ht.1 ⟨me.1.data ++ (Char.ofNat 95 :: epochField) ++ me.2.data⟩
  let modeWarn :=
    if mode ∈ (["auto", "min", "max"] : List String) then (mode, ([] : List Event))
    else ("auto", [Event.warnUnknownMode mode])
  let coef : ℚ :=
    if modeWarn.1 = "min" then -1
    else if modeWarn.1 = "max" then 1
    else if containsSub "acc" monitor || monitor.startsWith "fmeasure" then 1 else -1
  (⟨monitor, verbose, fp, n_models, save_weights_only, period, 0, [], coef⟩, modeWarn.2)

/-- The per-epoch metric snapshot: `None` or a mapping from metric name
to value. -/
abbrev Logs : Type := Option (List (String × ℚ))

/-- `on_epoch_end(epoch, logs)`: bump the interval counter, and when it
reaches `period`, reset it, resolve the path, read the monitored metric,
and either warn (metric missing), push-and-persist (pool not full), or
push-pop against the current minimum (pool full), deleting the evicted
record's file before persisting the new one. -/
def on_epoch_end (st : State) (epoch : ℕ) (logs : Logs) : State × List Event :=
  let logs := logs.getD []
  let st1 : State := { st with epochs_since_last_save := st.epochs_since_last_save + 1 }
  if st1.period ≤ st1.epochs_since_last_save then
    let st2 : State := { st1 with epochs_since_last_save := 0 }
    let filepath := formatPath st2.filepath (epoch + 1)
    match List.lookup st2.monitor logs with
    | none => (st2, [Event.warnMissingMetric st2.monitor])
    | some current =>
      if st2.n_models ≤ st2.tracker.length then
        let cand : Rec := (current * st2.coef, epoch + 1, filepath)
        let dt := heappushpop st2.tracker cand
        if dt.1 ≠ cand then
          ({ st2 with tracker := dt.2 },
            Event.removeFile dt.1.2.2 ::
              (if st2.save_weights_only then [Event.saveModelWeights filepath]
               else [Event.saveModel filepath]))
        else
          ({ st2 with tracker := dt.2 }, [])
      else
        ({ st2 with tracker := heappush st2.tracker (current * st2.coef, epoch + 1, filepath) },
          if st2.save_weights_only then [Event.saveModelWeights filepath]
          else [Event.saveModel filepath])
  else
    (st1, [])

/-- One epoch notification: the 0-based epoch index and the logs. -/
abbrev Call : Type := ℕ × Logs

/-- Run a sequence of epoch notifications, accumulating the emitted
events in order. -/
def runFrom (st : State) : List Call → State × List Event
  | [] => (st, [])
  | c :: cs =>
    let r := on_epoch_end st c.1 c.2
    let rest := runFrom r.1 cs
    (rest.1, r.2 ++ rest.2)

/-! ### Branch characterization and small invariant lemmas -/

/-- `on_epoch_end` with the structure-update projections reduced: the
guard, metric lookup and pool test read the original state's fields. -/
lemma on_epoch_end_eq (st : State) (e : ℕ) (logs : Logs) :
    on_epoch_end st e logs =
      if st.period ≤ st.epochs_since_last_save + 1 then
        let st2 : State := { st with epochs_since_last_save := 0 }
        let fp := formatPath st.filepath (e + 1)
        match List.lookup st.monitor (logs.getD []) with
        | none => (st2, [Event.warnMissingMetric st.monitor])
        | some current =>
          if st.n_models ≤ st.tracker.length then
            let cand : Rec := (current * st.coef, e + 1, fp)
            let dt := heappushpop st.tracker cand
            if dt.1 ≠ cand then
              ({ st2 with tracker := dt.2 },
                Event.removeFile dt.1.2.2 ::
                  (if st.save_weights_only then [Event.saveModelWeights fp]
                   else [Event.saveModel fp]))
            else ({ st2 with tracker := dt.2 }, [])
          else
            ({ st2 with tracker := heappush st.tracker (current * st.coef, e + 1, fp) },
              if st.save_weights_only then [Event.saveModelWeights fp]
              else [Event.saveModel fp])
      else ({ st with epochs_since_last_save := st.epochs_since_last_save + 1 }, []) := by
  rfl

/-- All configuration fields survive a call; only the counter and the
tracker can change. -/
lemma on_epoch_end_config (st : State) (e : ℕ) (logs : Logs) :
    (on_epoch_end st e logs).1.monitor = st.monitor ∧
    (on_epoch_end st e logs).1.verbose = st.verbose ∧
    (on_epoch_end st e logs).1.filepath = st.filepath ∧
    (on_epoch_end st e logs).1.n_models = st.n_models ∧
    (on_epoch_end st e logs).1.save_weights_only = st.save_weights_only ∧
    (on_epoch_end st e logs).1.period = st.period ∧
    (on_epoch_end st e logs).1.coef = st.coef := by
  rw [on_epoch_end_eq]
  split
  · cases hm : List.lookup st.monitor (logs.getD []) with
    | none => simp
    | some current =>
      dsimp only
      split
      · split
        · simp
        · simp
      · simp
  · simp

/-- The heap property needs to be checked only at in-range parent links,
which makes it decidable for a concrete list. -/
lemma isHeap_iff_parents (l : List Rec) :
    IsHeap l ↔ ∀ j, j < l.length → 0 < j →
      recLt (l.getD j dRec) (l.getD ((j - 1) / 2) dRec) = false := by
  constructor
  · intro h j hj hj0
    exact h ((j - 1) / 2) j (by unfold childEdge; omega) hj
  · intro h i j hedge hj
    have hij : i = (j - 1) / 2 := by rcases hedge with hh | hh <;> omega
    have hj0 : 0 < j := by rcases hedge with hh | hh <;> omega
    rw [hij]
    exact h j hj hj0

/-- Paths passed to `model.save` / `model.save_weights`, in order. -/
def persistedPaths : List Event → List String
  | [] => []
  | Event.saveModel p :: es => p :: persistedPaths es
  | Event.saveModelWeights p :: es => p :: persistedPaths es
  | _ :: es => persistedPaths es

/-- Paths passed to `os.remove`, in order. -/
def removedPaths : List Event → List String
  | [] => []
  | Event.removeFile p :: es => p :: removedPaths es
  | _ :: es => removedPaths es

/-- Persisted paths not (yet) removed. -/
def livePaths (evs : List Event) : List String :=
  (persistedPaths evs).filter (fun p => decide (p ∉ removedPaths evs))

lemma persistedPaths_append (a b : List Event) :
    persistedPaths (a ++ b) = persistedPaths a ++ persistedPaths b := by
  induction a with
  | nil => rfl
  | cons ev t ih =>
    cases ev <;> simp [persistedPaths, ih]

lemma removedPaths_append (a b : List Event) :
    removedPaths (a ++ b) = removedPaths a ++ removedPaths b := by
  induction a with
  | nil => rfl
  | cons ev t ih =>
    cases ev <;> simp [removedPaths, ih]

/-! ### Per-branch lemmas -/

/-- Below the interval: pure counter bump, no effects. -/
lemma on_epoch_end_skip (st : State) (e : ℕ) (logs : Logs)
    (h : st.epochs_since_last_save + 1 < st.period) :
    on_epoch_end st e logs =
      ({ st with epochs_since_last_save := st.epochs_since_last_save + 1 }, []) := by
  rw [on_epoch_end_eq, if_neg (by omega)]

/-- A whole run below the interval: no events, counter accumulates. -/
lemma runFrom_skip_all (calls : List Call) :
    ∀ st : State, st.epochs_since_last_save + calls.length < st.period →
      (runFrom st calls).2 = [] ∧
      (runFrom st calls).1 =
        { st with epochs_since_last_save := st.epochs_since_last_save + calls.length } := by
  induction calls with
  | nil =>
    intro st _
    exact ⟨rfl, rfl⟩
  | cons c cs ih =>
    intro st h
    simp only [List.length_cons] at h
    have hskip : st.epochs_since_last_save + 1 < st.period := by omega
    simp only [runFrom, on_epoch_end_skip st c.1 c.2 hskip]
    have hih := ih { st with epochs_since_last_save := st.epochs_since_last_save + 1 }
      (by simp; omega)
    rw [hih.1, hih.2]
    refine ⟨rfl, ?_⟩
    congr 1
    simp
    omega

/-- Claim C5: `on_epoch_end` first increments the epochs-since-last-save
counter; while the incremented counter is below `period` the call is a
no-op (no events, tracker untouched, counter retained across calls); once
it reaches `period` it is reset to 0 and evaluation proceeds; hence with
`period = k` a fresh instance emits no events at all (in particular zero
persist calls) on the first `k-1` notifications, whatever their metrics. -/
theorem C5_interval_counter (k : ℕ) :
    (∀ st : State, ∀ e logs, st.period = k → st.epochs_since_last_save + 1 < k →
      on_epoch_end st e logs =
        ({ st with epochs_since_last_save := st.epochs_since_last_save + 1 }, [])) ∧
    (∀ st : State, ∀ e logs, st.period = k → k ≤ st.epochs_since_last_save + 1 →
      (on_epoch_end st e logs).1.epochs_since_last_save = 0) ∧
    (∀ fp monitor verbose n_models swo mode (calls : List Call),
      calls.length + 1 ≤ k →
      (runFrom (init fp monitor verbose n_models swo mode k).1 calls).2 = [] ∧
      (runFrom (init fp monitor verbose n_models swo mode k).1 calls).1.epochs_since_last_save =
        calls.length) := by
  refine ⟨?_, ?_, ?_⟩
  · intro st e logs hk h
    exact on_epoch_end_skip st e logs (by omega)
  · intro st e logs hk h
    rw [on_epoch_end_eq, if_pos (by omega)]
    cases hm : List.lookup st.monitor (logs.getD []) with
    | none => simp
    | some current =>
      dsimp only
      split
      · split
        · simp
        · simp
      · simp
  · intro fp monitor verbose n_models swo mode calls h
    have h0 : ((init fp monitor verbose n_models swo mode k).1).epochs_since_last_save = 0 := rfl
    have hper : ((init fp monitor verbose n_models swo mode k).1).period = k := rfl
    have := runFrom_skip_all calls (init fp monitor verbose n_models swo mode k).1
      (by rw [h0, hper]; omega)
    refine ⟨this.1, ?_⟩
    rw [this.2]
    simp [h0]

/-- Claim C5 witness: with `period = 3`, two metric-bearing epochs from a
fresh instance produce no events and leave the counter at 2. -/
theorem C5_interval_counter_witness :
    (runFrom (init "model.h5" "val_loss" 0 5 false "min" 3).1
        [(0, some [("val_loss", mkRat 1 2)]), (1, some [("val_loss", mkRat 1 3)])]).2 = [] ∧
    (runFrom (init "model.h5" "val_loss" 0 5 false "min" 3).1
        [(0, some [("val_loss", mkRat 1 2)]), (1, some [("val_loss", mkRat 1 3)])]).1.epochs_since_last_save = 2 :=
  (C5_interval_counter 3).2.2 "model.h5" "val_loss" 0 5 false "min"
    [(0, some [("val_loss", mkRat 1 2)]), (1, some [("val_loss", mkRat 1 3)])] (by decide)

/-- Claim C6: when the interval is reached but the monitored metric is
absent from `logs`, the call emits exactly the non-fatal warning, performs
no persist and no delete, leaves the tracker unchanged, and nevertheless
resets the interval counter to 0 (the reset precedes the metric check). -/
theorem C6_missing_metric (st : State) (e : ℕ) (logs : Logs)
    (hper : st.period ≤ st.epochs_since_last_save + 1)
    (hmiss : List.lookup st.monitor (logs.getD []) = none) :
    on_epoch_end st e logs =
      ({ st with epochs_since_last_save := 0 }, [Event.warnMissingMetric st.monitor]) := by
  rw [on_epoch_end_eq, if_pos (by omega)]
  dsimp only
  rw [hmiss]

/-- Claim C6 witness: a fresh `period = 1` instance notified with logs
lacking `val_loss` warns, resets the counter, and changes nothing else. -/
theorem C6_missing_metric_witness :
    on_epoch_end (init "model.h5" "val_loss" 0 5 false "min" 1).1 0 (some [("acc", mkRat 1 2)]) =
      ({ (init "model.h5" "val_loss" 0 5 false "min" 1).1 with epochs_since_last_save := 0 },
        [Event.warnMissingMetric "val_loss"]) :=
  C6_missing_metric (init "model.h5" "val_loss" 0 5 false "min" 1).1 0
    (some [("acc", mkRat 1 2)]) (by decide) (by decide)

/-- Claim C7: construction fixes the direction coefficient: mode `min`
gives `-1.0`, `max` gives `+1.0`, `auto` gives `+1.0` exactly when the
monitor name contains `acc` or starts with `fmeasure` (else `-1.0`); an
unknown mode warns (RuntimeWarning) and behaves exactly as `auto`; no
call ever changes the coefficient; and every candidate record entering
the tracker carries oriented score `current * coef`. -/
theorem C7_direction_coefficient :
    (∀ fp monitor : String, ∀ verbose n : ℕ, ∀ swo : Bool, ∀ period : ℕ,
      (init fp monitor verbose n swo "min" period).1.coef = -1 ∧
      (init fp monitor verbose n swo "max" period).1.coef = 1 ∧
      (init fp monitor verbose n swo "auto" period).1.coef =
        (if containsSub "acc" monitor || monitor.startsWith "fmeasure" then 1 else -1) ∧
      (∀ mode : String, mode ∉ (["auto", "min", "max"] : List String) →
        init fp monitor verbose n swo mode period =
          ((init fp monitor verbose n swo "auto" period).1,
            [Event.warnUnknownMode mode]))) ∧
    (∀ st : State, ∀ e logs, (on_epoch_end st e logs).1.coef = st.coef) ∧
    (∀ st : State, ∀ e logs current, st.period ≤ st.epochs_since_last_save + 1 →
      List.lookup st.monitor (logs.getD []) = some current →
      ∀ r ∈ (on_epoch_end st e logs).1.tracker,
        r ∈ st.tracker ∨ r = (current * st.coef, e + 1, formatPath st.filepath (e + 1))) := by
  refine ⟨?_, ?_, ?_⟩
  · intro fp monitor verbose n swo period
    refine ⟨rfl, rfl, rfl, ?_⟩
    intro mode hmode
    unfold init
    rw [if_neg hmode,
      if_pos (show ("auto" : String) ∈ (["auto", "min", "max"] : List String) by decide)]
  · intro st e logs
    exact (on_epoch_end_config st e logs).2.2.2.2.2.2
  · intro st e logs current hper hmet r hr
    rw [on_epoch_end_eq, if_pos (by omega)] at hr
    dsimp only at hr
    rw [hmet] at hr
    dsimp only at hr
    by_cases hfull : st.n_models ≤ st.tracker.length
    · rw [if_pos hfull] at hr
      set cand : Rec := (current * st.coef, e + 1, formatPath st.filepath (e + 1)) with hcand
      by_cases hne : (heappushpop st.tracker cand).1 ≠ cand
      · rw [if_pos hne] at hr
        dsimp only at hr
        by_cases hswap : 0 < st.tracker.length ∧
            recLt (st.tracker.getD 0 dRec) cand = true
        · have hperm := heappushpop_perm_of_swap st.tracker cand hswap
          have hr2 := hperm.mem_iff.1 hr
          rcases List.mem_or_eq_of_mem_set hr2 with h | h
          · exact Or.inl h
          · exact Or.inr h
        · unfold heappushpop at hne hr
          rw [if_neg hswap] at hne hr
          exact Or.inl hr
      · rw [if_neg hne] at hr
        dsimp only at hr
        unfold heappushpop at hne hr
        by_cases hswap : 0 < st.tracker.length ∧
            recLt (st.tracker.getD 0 dRec) cand = true
        · rw [if_pos hswap] at hne
          exfalso
          obtain ⟨hlen, hlt⟩ := hswap
          have heq : st.tracker.getD 0 dRec = cand := by
            by_contra hx
            exact hne hx
          rw [heq, recLt_self] at hlt
          exact Bool.noConfusion hlt
        · rw [if_neg hswap] at hr
          exact Or.inl hr
    · rw [if_neg hfull] at hr
      dsimp only at hr
      have hperm := heappush_perm st.tracker (current * st.coef, e + 1,
        formatPath st.filepath (e + 1))
      have hr2 := hperm.mem_iff.1 hr
      rcases List.mem_append.1 hr2 with h | h
      · exact Or.inl h
      · exact Or.inr (List.mem_singleton.1 h)

/-- Claim C7 witness: an unknown mode on an accuracy monitor warns and
falls back to `auto`'s coefficient `+1`. -/
theorem C7_direction_coefficient_witness :
    (init "model.h5" "val_acc" 0 5 false "banana" 1).1.coef = 1 ∧
    (init "model.h5" "val_acc" 0 5 false "banana" 1).2 = [Event.warnUnknownMode "banana"] := by
  have h := (C7_direction_coefficient.1 "model.h5" "val_acc" 0 5 false 1).2.2.2
    "banana" (by decide)
  rw [h]
  exact ⟨by decide, rfl⟩

/-- Tracker length after one call, given it was within capacity. -/
lemma on_epoch_end_tracker_length (st : State) (e : ℕ) (logs : Logs)
    (h : st.tracker.length ≤ st.n_models) :
    (on_epoch_end st e logs).1.tracker.length ≤ st.n_models := by
  rw [on_epoch_end_eq]
  split
  · cases hm : List.lookup st.monitor (logs.getD []) with
    | none => simpa using h
    | some current =>
      dsimp only
      by_cases hfull : st.n_models ≤ st.tracker.length
      · rw [if_pos hfull]
        split
        · simpa [heappushpop_length] using h
        · simpa [heappushpop_length] using h
      · rw [if_neg hfull]
        simp only [heappush_length]
        omega
  · simpa using h

/-- Claim C2: starting from a freshly constructed callback with positive
`n_models`, every sequence of `on_epoch_end` calls keeps the retained set
within capacity: `|tracker| ≤ n_models` after every call. -/
theorem C2_capacity_bound (fp monitor : String) (verbose n : ℕ) (swo : Bool)
    (mode : String) (period : ℕ) (_hpos : 0 < n) (calls : List Call) :
    ((runFrom (init fp monitor verbose n swo mode period).1 calls).1.tracker).length ≤ n := by
  have key : ∀ cs : List Call, ∀ st : State, st.n_models = n → st.tracker.length ≤ n →
      ((runFrom st cs).1.tracker).length ≤ n := by
    intro cs
    induction cs with
    | nil => intro st _ h; exact h
    | cons c ct ih =>
      intro st hn h
      simp only [runFrom]
      refine ih _ ?_ ?_
      · rw [(on_epoch_end_config st c.1 c.2).2.2.2.1, hn]
      · rw [← hn]
        exact on_epoch_end_tracker_length st c.1 c.2 (by omega)
  exact key calls _ rfl (by simp [init])

/-- Claim C2 witness: capacity 2, four admissible epochs, pool size stays
at 2. -/
theorem C2_capacity_bound_witness :
    ((runFrom (init "model.h5" "val_loss" 0 2 false "min" 1).1
        [(0, some [("val_loss", mkRat 1 2)]), (1, some [("val_loss", mkRat 3 10)]),
         (2, some [("val_loss", mkRat 2 5)]), (3, some [("val_loss", mkRat 3 5)])]).1.tracker).length ≤ 2 :=
  C2_capacity_bound "model.h5" "val_loss" 0 2 false "min" 1 (by decide)
    [(0, some [("val_loss", mkRat 1 2)]), (1, some [("val_loss", mkRat 3 10)]),
     (2, some [("val_loss", mkRat 2 5)]), (3, some [("val_loss", mkRat 3 5)])]

/-- Claim C10: with `n_models = 0` the full-pool branch is always taken,
`heappushpop` on the empty tracker returns the candidate itself (no
exception in the source), so every candidate is discarded: no persist, no
delete, and the tracker stays empty forever. -/
theorem C10_zero_capacity (fp monitor : String) (verbose : ℕ) (swo : Bool)
    (mode : String) (period : ℕ) (calls : List Call) :
    (∀ item : Rec, heappushpop [] item = (item, [])) ∧
    (runFrom (init fp monitor verbose 0 swo mode period).1 calls).1.tracker = [] ∧
    persistedPaths (runFrom (init fp monitor verbose 0 swo mode period).1 calls).2 = [] ∧
    removedPaths (runFrom (init fp monitor verbose 0 swo mode period).1 calls).2 = [] := by
  have hstep : ∀ st : State, ∀ e logs, st.n_models = 0 → st.tracker = [] →
      (on_epoch_end st e logs).1.tracker = [] ∧
      persistedPaths (on_epoch_end st e logs).2 = [] ∧
      removedPaths (on_epoch_end st e logs).2 = [] := by
    intro st e logs hn ht
    rw [on_epoch_end_eq]
    split
    · cases hm : List.lookup st.monitor (logs.getD []) with
      | none => simp [ht, persistedPaths, removedPaths]
      | some current =>
        dsimp only
        rw [if_pos (by rw [hn]; omega)]
        rw [ht, hn]
        have hpp : ∀ item : Rec, heappushpop [] item = (item, []) := by
          intro item
          unfold heappushpop
          rw [if_neg (by simp)]
        rw [hpp]
        rw [if_neg (by simp)]
        simp [persistedPaths, removedPaths]
    · simp [ht, persistedPaths, removedPaths]
  have key : ∀ cs : List Call, ∀ st : State, st.n_models = 0 → st.tracker = [] →
      (runFrom st cs).1.tracker = [] ∧
      persistedPaths (runFrom st cs).2 = [] ∧
      removedPaths (runFrom st cs).2 = [] := by
    intro cs
    induction cs with
    | nil =>
      intro st _ ht
      exact ⟨ht, rfl, rfl⟩
    | cons c ct ih =>
      intro st hn ht
      simp only [runFrom]
      have h1 := hstep st c.1 c.2 hn ht
      have h2 := ih (on_epoch_end st c.1 c.2).1
        (by rw [(on_epoch_end_config st c.1 c.2).2.2.2.1, hn]) h1.1
      refine ⟨h2.1, ?_, ?_⟩
      · rw [persistedPaths_append, h1.2.1, h2.2.1]
        rfl
      · rw [removedPaths_append, h1.2.2, h2.2.2]
        rfl
  refine ⟨?_, key calls _ rfl rfl⟩
  intro item
  unfold heappushpop
  rw [if_neg (by simp)]

/-- Claim C4: each call performs at most one persist and at most one
delete; and on a replacement call (pool full, candidate beats the
minimum) the event order is delete the evicted file first, then persist
the new one. -/
theorem C4_side_effect_order (st : State) (e : ℕ) (logs : Logs) :
    ((persistedPaths (on_epoch_end st e logs).2).length ≤ 1 ∧
     (removedPaths (on_epoch_end st e logs).2).length ≤ 1) ∧
    (∀ current : ℚ, st.period ≤ st.epochs_since_last_save + 1 →
      List.lookup st.monitor (logs.getD []) = some current →
      st.n_models ≤ st.tracker.length →
      (heappushpop st.tracker (current * st.coef, e + 1, formatPath st.filepath (e + 1))).1 ≠
        (current * st.coef, e + 1, formatPath st.filepath (e + 1)) →
      (on_epoch_end st e logs).2 =
        [Event.removeFile (heappushpop st.tracker (current * st.coef, e + 1,
            formatPath st.filepath (e + 1))).1.2.2,
          if st.save_weights_only then
            Event.saveModelWeights (formatPath st.filepath (e + 1))
          else Event.saveModel (formatPath st.filepath (e + 1))]) := by
  constructor
  · rw [on_epoch_end_eq]
    split
    · cases hm : List.lookup st.monitor (logs.getD []) with
      | none => simp [persistedPaths, removedPaths]
      | some current =>
        dsimp only
        split
        · split
          · cases hswo : st.save_weights_only <;>
              simp [persistedPaths, removedPaths]
          · simp [persistedPaths, removedPaths]
        · cases hswo : st.save_weights_only <;>
            simp [persistedPaths, removedPaths]
    · simp [persistedPaths, removedPaths]
  · intro current hper hmet hfull hne
    rw [on_epoch_end_eq, if_pos (by omega)]
    dsimp only
    rw [hmet]
    dsimp only
    rw [if_pos hfull, if_pos hne]
    cases hswo : st.save_weights_only <;> simp

unseal Rat.mul in
/-- Claim C4 witness: on the scenario's third epoch (pool full, score 0.4
beats 0.5) the call emits exactly delete-then-persist, in that order. -/
theorem C4_side_effect_order_witness :
    (on_epoch_end
        (runFrom (init "model.h5" "val_loss" 0 2 false "min" 1).1
          [(0, some [("val_loss", mkRat 1 2)]), (1, some [("val_loss", mkRat 3 10)])]).1
        2 (some [("val_loss", mkRat 2 5)])).2 =
      [Event.removeFile "model_1.h5", Event.saveModel "model_3.h5"] := by
  have h := (C4_side_effect_order
    (runFrom (init "model.h5" "val_loss" 0 2 false "min" 1).1
      [(0, some [("val_loss", mkRat 1 2)]), (1, some [("val_loss", mkRat 3 10)])]).1
    2 (some [("val_loss", mkRat 2 5)])).2 (mkRat 2 5) (by decide) (by decide)
    (by decide) (by decide)
  rw [h]
  decide

unseal Rat.mul in
/-- Claim C8: with `n_models = 2`, `mode = min`, `monitor = val_loss`,
`period = 1` and `val_loss` reporting 0.5, 0.3, 0.4, 0.6: the pool holds
raw scores 0.5 then 0.5, 0.3; the third call evicts epoch 1's checkpoint
(deleting its file and persisting the new one), leaving raw scores 0.4,
0.3; and the fourth call is discarded with no persist and no delete. -/
theorem C8_scenario :
    (runFrom (init "model.h5" "val_loss" 0 2 false "min" 1).1
        [(0, some [("val_loss", mkRat 1 2)])]).1.tracker =
      [(mkRat (-1) 2, 1, "model_1.h5")] ∧
    (runFrom (init "model.h5" "val_loss" 0 2 false "min" 1).1
        [(0, some [("val_loss", mkRat 1 2)]), (1, some [("val_loss", mkRat 3 10)])]).1.tracker =
      [(mkRat (-1) 2, 1, "model_1.h5"), (mkRat (-3) 10, 2, "model_2.h5")] ∧
    (runFrom (init "model.h5" "val_loss" 0 2 false "min" 1).1
        [(0, some [("val_loss", mkRat 1 2)]), (1, some [("val_loss", mkRat 3 10)]),
         (2, some [("val_loss", mkRat 2 5)])]).1.tracker =
      [(mkRat (-2) 5, 3, "model_3.h5"), (mkRat (-3) 10, 2, "model_2.h5")] ∧
    (runFrom (init "model.h5" "val_loss" 0 2 false "min" 1).1
        [(0, some [("val_loss", mkRat 1 2)]), (1, some [("val_loss", mkRat 3 10)]),
         (2, some [("val_loss", mkRat 2 5)])]).2 =
      [Event.saveModel "model_1.h5", Event.saveModel "model_2.h5",
       Event.removeFile "model_1.h5", Event.saveModel "model_3.h5"] ∧
    (runFrom (init "model.h5" "val_loss" 0 2 false "min" 1).1
        [(0, some [("val_loss", mkRat 1 2)]), (1, some [("val_loss", mkRat 3 10)]),
         (2, some [("val_loss", mkRat 2 5)]), (3, some [("val_loss", mkRat 3 5)])]).1.tracker =
      [(mkRat (-2) 5, 3, "model_3.h5"), (mkRat (-3) 10, 2, "model_2.h5")] ∧
    (runFrom (init "model.h5" "val_loss" 0 2 false "min" 1).1
        [(0, some [("val_loss", mkRat 1 2)]), (1, some [("val_loss", mkRat 3 10)]),
         (2, some [("val_loss", mkRat 2 5)]), (3, some [("val_loss", mkRat 3 5)])]).2 =
      [Event.saveModel "model_1.h5", Event.saveModel "model_2.h5",
       Event.removeFile "model_1.h5", Event.saveModel "model_3.h5"] := by
  decide

/-- Claim C9: the constructor itself rewrites the supplied file path by
inserting `_\x7bepoch:d\x7d` between base name and extension
(`dir/model.h5` becomes `dir/model_\x7bepoch:d\x7d.h5`); every eligible
persisting call resolves the template with `epoch + 1`; and for a
template whose only replacement field is the injected epoch field,
distinct epoch indices resolve to distinct paths. -/
theorem C9_path_template (monitor : String) (verbose n : ℕ) (swo : Bool)
    (mode : String) (period : ℕ) :
    (init "dir/model.h5" monitor verbose n swo mode period).1.filepath =
      "dir/model_\x7bepoch:d\x7d.h5" ∧
    (∀ st : State, ∀ e logs current, st.period ≤ st.epochs_since_last_save + 1 →
      List.lookup st.monitor (logs.getD []) = some current →
      st.tracker.length < st.n_models →
      persistedPaths (on_epoch_end st e logs).2 = [formatPath st.filepath (e + 1)]) ∧
    (∀ pre post : List Char, Char.ofNat 123 ∉ pre → Char.ofNat 123 ∉ post →
      ∀ a b : ℕ, a ≠ b →
        formatPath ⟨pre ++ epochField ++ post⟩ a ≠ formatPath ⟨pre ++ epochField ++ post⟩ b) := by
  refine ⟨rfl, ?_, ?_⟩
  · intro st e logs current hper hmet hroom
    rw [on_epoch_end_eq, if_pos (by omega)]
    dsimp only
    rw [hmet]
    dsimp only
    rw [if_neg (by omega)]
    cases hswo : st.save_weights_only <;> simp [persistedPaths]
  · intro pre post hpre hpost a b hab h
    exact hab (formatPath_inj pre post hpre hpost h)

unseal Rat.mul in
/-- Claim C9 witness: the first admissible epoch of a fresh callback on
`model.h5` persists to the resolved path `model_1.h5`, and epochs 0 and 1
resolve the rewritten template to distinct paths. -/
theorem C9_path_template_witness :
    persistedPaths (on_epoch_end (init "model.h5" "val_loss" 0 5 false "min" 1).1 0
        (some [("val_loss", mkRat 1 2)])).2 =
      [formatPath (init "model.h5" "val_loss" 0 5 false "min" 1).1.filepath 1] ∧
    formatPath ⟨"model_".data ++ epochField ++ ".h5".data⟩ 0 ≠
      formatPath ⟨"model_".data ++ epochField ++ ".h5".data⟩ 1 := by
  constructor
  · exact (C9_path_template "val_loss" 0 5 false "min" 1).2.1
      (init "model.h5" "val_loss" 0 5 false "min" 1).1 0
      (some [("val_loss", mkRat 1 2)]) (mkRat 1 2) (by decide) (by decide) (by decide)
  · exact (C9_path_template "val_loss" 0 5 false "min" 1).2.2
      "model_".data ".h5".data (by decide) (by decide) 0 1 (by decide)

/-- Claim C1: on a full-pool call (interval reached, metric present,
`|tracker| ≥ n_models`, with a minimum to evict) the candidate
`(current*coef, epoch+1, resolvedPath)` replaces the tracker's minimum
under the lexicographic tuple order exactly when it is strictly greater
than that minimum: then the old minimum's file is deleted, the candidate
is persisted and inserted, and the minimum is dropped; otherwise (the
candidate is, or ties into becoming, the new minimum) nothing is
persisted or deleted and the pool is unchanged. -/
theorem C1_full_pool_replacement (st : State) (e : ℕ) (logs : Logs) (current : ℚ) (m : Rec)
    (hheap : IsHeap st.tracker)
    (hper : st.period ≤ st.epochs_since_last_save + 1)
    (hmet : List.lookup st.monitor (logs.getD []) = some current)
    (hfull : st.n_models ≤ st.tracker.length)
    (hpos : 0 < st.n_models)
    (hmin : isMinOf m st.tracker) :
    (recLt m (current * st.coef, e + 1, formatPath st.filepath (e + 1)) = true →
      (on_epoch_end st e logs).2 =
        Event.removeFile m.2.2 ::
          (if st.save_weights_only then
            [Event.saveModelWeights (formatPath st.filepath (e + 1))]
           else [Event.saveModel (formatPath st.filepath (e + 1))]) ∧
      List.Perm (on_epoch_end st e logs).1.tracker
        ((current * st.coef, e + 1, formatPath st.filepath (e + 1)) :: st.tracker.erase m)) ∧
    (recLt m (current * st.coef, e + 1, formatPath st.filepath (e + 1)) = false →
      (on_epoch_end st e logs).2 = [] ∧
      (on_epoch_end st e logs).1.tracker = st.tracker) := by
  have hlen0 : 0 < st.tracker.length := by omega
  have hroot := isHeap_root_isMin hheap hlen0
  have hm0 : m = st.tracker.getD 0 dRec := isMinOf_unique hmin hroot
  rw [on_epoch_end_eq, if_pos (by omega)]
  dsimp only
  rw [hmet]
  dsimp only
  rw [if_pos hfull]
  set fp := formatPath st.filepath (e + 1) with hfp
  set cand : Rec := (current * st.coef, e + 1, fp) with hcand
  constructor
  · intro hlt
    have hswap : 0 < st.tracker.length ∧ recLt (st.tracker.getD 0 dRec) cand = true :=
      ⟨hlen0, by rw [← hm0]; exact hlt⟩
    have hperm := heappushpop_perm_of_swap st.tracker cand hswap
    have hne' : st.tracker.getD 0 dRec ≠ cand := by
      intro hx
      have h2 := hswap.2
      rw [hx, recLt_self] at h2
      exact Bool.noConfusion h2
    unfold heappushpop
    rw [if_pos hswap]
    dsimp only
    rw [if_pos hne']
    refine ⟨by rw [hm0], ?_⟩
    dsimp only
    have hperm' : List.Perm (siftup (st.tracker.set 0 cand) 0) (st.tracker.set 0 cand) := by
      unfold heappushpop at hperm
      rw [if_pos hswap] at hperm
      exact hperm
    refine List.Perm.trans hperm' ?_
    obtain ⟨hd, tl, htr⟩ : ∃ hd tl, st.tracker = hd :: tl := by
      cases h : st.tracker with
      | nil => rw [h] at hlen0; simp at hlen0
      | cons hd tl => exact ⟨hd, tl, rfl⟩
    have hmhd : m = hd := by rw [hm0, htr]; rfl
    rw [htr, hmhd, List.set_cons_zero, List.erase_cons_head]
  · intro hlt
    have hswapneg : ¬ (0 < st.tracker.length ∧
        recLt (st.tracker.getD 0 dRec) cand = true) := by
      intro hc
      have h2 := hc.2
      rw [← hm0, hlt] at h2
      exact Bool.noConfusion h2
    unfold heappushpop
    rw [if_neg hswapneg]
    dsimp only
    rw [if_neg (show ¬ cand ≠ cand from fun hx => hx rfl)]
    exact ⟨rfl, rfl⟩

unseal Rat.mul in
/-- Claim C1 witness: on the full pool of scenario A (scores 0.5 and 0.3,
capacity 2) the candidate with `val_loss = 0.4` strictly beats the
minimum, so the epoch-1 file is removed, the new checkpoint is persisted,
and the pool becomes 0.4, 0.3. -/
theorem C1_full_pool_replacement_witness :
    (on_epoch_end
        (State.mk "val_loss" 0 "model_\x7bepoch:d\x7d.h5" 2 false 1 0
          [(mkRat (-1) 2, 1, "model_1.h5"), (mkRat (-3) 10, 2, "model_2.h5")] (-1))
        2 (some [("val_loss", mkRat 2 5)])).2 =
      [Event.removeFile "model_1.h5", Event.saveModel "model_3.h5"] ∧
    List.Perm
      (on_epoch_end
        (State.mk "val_loss" 0 "model_\x7bepoch:d\x7d.h5" 2 false 1 0
          [(mkRat (-1) 2, 1, "model_1.h5"), (mkRat (-3) 10, 2, "model_2.h5")] (-1))
        2 (some [("val_loss", mkRat 2 5)])).1.tracker
      [(mkRat 2 5 * (-1), 3, "model_3.h5"), (mkRat (-3) 10, 2, "model_2.h5")] := by
  have h := (C1_full_pool_replacement
    (State.mk "val_loss" 0 "model_\x7bepoch:d\x7d.h5" 2 false 1 0
      [(mkRat (-1) 2, 1, "model_1.h5"), (mkRat (-3) 10, 2, "model_2.h5")] (-1))
    2 (some [("val_loss", mkRat 2 5)]) (mkRat 2 5) (mkRat (-1) 2, 1, "model_1.h5")
    ((isHeap_iff_parents _).2 (by decide)) (by decide) (by decide) (by decide)
    (by decide) (by decide)).1 (by decide)
  refine ⟨?_, ?_⟩
  · rw [h.1]
    decide
  · refine List.Perm.trans h.2 ?_
    decide

/-! ### File lifecycle: trace predicates -/

/-- The lifecycle contract on an event trace with capacity `n`: every
removed path was persisted by an earlier event, no path is removed twice,
and at every point in time at most `n` persisted files are live. -/
def GoodEvents (n : ℕ) (evs : List Event) : Prop :=
  (∀ e1 p e2, evs = e1 ++ Event.removeFile p :: e2 → p ∈ persistedPaths e1) ∧
  (removedPaths evs).Nodup ∧
  (∀ e1 e2, evs = e1 ++ e2 → (livePaths e1).length ≤ n)

lemma goodEvents_nil (n : ℕ) : GoodEvents n [] := by
  refine ⟨?_, by simp [removedPaths], ?_⟩
  · intro e1 p e2 h
    exact absurd h.symm (by simp)
  · intro e1 e2 h
    have : e1 = [] := by
      have := congrArg List.length h
      simp at this
      exact List.length_eq_zero.1 (by omega)
    rw [this]
    simp [livePaths, persistedPaths]

lemma filter_length_mono {α : Type} (l : List α) (P Q : α → Bool)
    (h : ∀ x, Q x = true → P x = true) :
    (l.filter Q).length ≤ (l.filter P).length := by
  induction l with
  | nil => simp
  | cons a t ih =>
    by_cases hq : Q a = true
    · rw [List.filter_cons_of_pos hq, List.filter_cons_of_pos (h a hq)]
      simpa using ih
    · rw [List.filter_cons_of_neg (by simpa using hq)]
      by_cases hp : P a = true
      · rw [List.filter_cons_of_pos hp]
        simp only [List.length_cons]
        omega
      · rw [List.filter_cons_of_neg (by simpa using hp)]
        exact ih

/-- Appending a remove event restricts the live set to paths other than
the removed one. -/
lemma livePaths_append_remove (evs : List Event) (q : String) :
    livePaths (evs ++ [Event.removeFile q]) =
      (livePaths evs).filter (fun p => decide (p ≠ q)) := by
  unfold livePaths
  rw [persistedPaths_append, removedPaths_append]
  have h1 : persistedPaths [Event.removeFile q] = [] := rfl
  have h2 : removedPaths [Event.removeFile q] = [q] := rfl
  rw [h1, h2, List.append_nil, List.filter_filter]
  apply List.filter_congr
  intro p _
  by_cases hp : p ∈ removedPaths evs <;> by_cases hq : p = q <;>
    simp [hp, hq]

/-- Appending a persist event of a not-yet-removed path extends the live
set by that path. -/
lemma livePaths_append_persist (evs : List Event) (ev : Event) (p : String)
    (hper : persistedPaths [ev] = [p]) (hrem : removedPaths [ev] = [])
    (hfresh : p ∉ removedPaths evs) :
    livePaths (evs ++ [ev]) = livePaths evs ++ [p] := by
  unfold livePaths
  rw [persistedPaths_append, removedPaths_append, hper, hrem, List.append_nil,
    List.filter_append]
  congr 1
  rw [List.filter_cons]
  simp [hfresh]

/-- Extending a good trace stays good, given the contract on the appended
chunk relative to the existing trace. -/
lemma goodEvents_extend (n : ℕ) (evs delta : List Event) (hg : GoodEvents n evs)
    (hrem : ∀ e1 p e2, delta = e1 ++ Event.removeFile p :: e2 →
      p ∈ persistedPaths evs ++ persistedPaths e1)
    (hremnodup : (removedPaths delta).Nodup)
    (hremnew : ∀ p ∈ removedPaths delta, p ∉ removedPaths evs)
    (hlive : ∀ d1 d2, delta = d1 ++ d2 → (livePaths (evs ++ d1)).length ≤ n) :
    GoodEvents n (evs ++ delta) := by
  refine ⟨?_, ?_, ?_⟩
  · intro e1 p e2 h
    rcases List.append_eq_append_iff.1 h with ⟨a', ha1, ha2⟩ | ⟨c', hc1, hc2⟩
    · have := hrem a' p e2 ha2
      rw [ha1, persistedPaths_append]
      exact this
    · cases c' with
      | nil =>
        have he1 : evs = e1 := by simpa using hc1
        have h3 := hrem [] p e2 (by simpa using hc2.symm)
        rw [← he1]
        rcases List.mem_append.1 h3 with h4 | h4
        · exact h4
        · exact absurd h4 (by simp [persistedPaths])
      | cons x c2 =>
        obtain ⟨hx, hrest⟩ := List.cons.inj hc2
        subst hx
        exact hg.1 e1 p c2 hc1
  · rw [removedPaths_append]
    rw [List.nodup_append]
    exact ⟨hg.2.1, hremnodup, fun p hp hp' => hremnew p hp' hp⟩
  · intro e1 e2 h
    rcases List.append_eq_append_iff.1 h with ⟨a', ha1, ha2⟩ | ⟨c', hc1, hc2⟩
    · rw [ha1]
      exact hlive a' e2 ha2
    · exact hg.2.2 e1 c' hc1

/-! ### Per-branch equations for `on_epoch_end` -/

lemma on_epoch_end_missing (st : State) (e : ℕ) (logs : Logs)
    (hper : st.period ≤ st.epochs_since_last_save + 1)
    (hmiss : List.lookup st.monitor (logs.getD []) = none) :
    on_epoch_end st e logs =
      ({ st with epochs_since_last_save := 0 }, [Event.warnMissingMetric st.monitor]) := by
  rw [on_epoch_end_eq, if_pos (by omega)]
  dsimp only
  rw [hmiss]

lemma on_epoch_end_push (st : State) (e : ℕ) (logs : Logs) (current : ℚ)
    (hper : st.period ≤ st.epochs_since_last_save + 1)
    (hmet : List.lookup st.monitor (logs.getD []) = some current)
    (hroom : st.tracker.length < st.n_models) :
    on_epoch_end st e logs =
      ({ st with
          epochs_since_last_save := 0
          tracker := heappush st.tracker
            (current * st.coef, e + 1, formatPath st.filepath (e + 1)) },
        if st.save_weights_only then
          [Event.saveModelWeights (formatPath st.filepath (e + 1))]
        else [Event.saveModel (formatPath st.filepath (e + 1))]) := by
  rw [on_epoch_end_eq, if_pos (by omega)]
  dsimp only
  rw [hmet]
  dsimp only
  rw [if_neg (by omega)]

lemma on_epoch_end_swap (st : State) (e : ℕ) (logs : Logs) (current : ℚ)
    (hper : st.period ≤ st.epochs_since_last_save + 1)
    (hmet : List.lookup st.monitor (logs.getD []) = some current)
    (hfull : st.n_models ≤ st.tracker.length)
    (hswap : 0 < st.tracker.length ∧ recLt (st.tracker.getD 0 dRec)
      (current * st.coef, e + 1, formatPath st.filepath (e + 1)) = true) :
    on_epoch_end st e logs =
      ({ st with
          epochs_since_last_save := 0
          tracker := siftup (st.tracker.set 0
            (current * st.coef, e + 1, formatPath st.filepath (e + 1))) 0 },
        Event.removeFile (st.tracker.getD 0 dRec).2.2 ::
          (if st.save_weights_only then
            [Event.saveModelWeights (formatPath st.filepath (e + 1))]
          else [Event.saveModel (formatPath st.filepath (e + 1))])) := by
  rw [on_epoch_end_eq, if_pos (by omega)]
  dsimp only
  rw [hmet]
  dsimp only
  rw [if_pos hfull]
  have hne' : st.tracker.getD 0 dRec ≠
      (current * st.coef, e + 1, formatPath st.filepath (e + 1)) := by
    intro hx
    have h2 := hswap.2
    rw [hx, recLt_self] at h2
    exact Bool.noConfusion h2
  unfold heappushpop
  rw [if_pos hswap]
  dsimp only
  rw [if_pos hne']

lemma on_epoch_end_noswap (st : State) (e : ℕ) (logs : Logs) (current : ℚ)
    (hper : st.period ≤ st.epochs_since_last_save + 1)
    (hmet : List.lookup st.monitor (logs.getD []) = some current)
    (hfull : st.n_models ≤ st.tracker.length)
    (hnoswap : ¬ (0 < st.tracker.length ∧ recLt (st.tracker.getD 0 dRec)
      (current * st.coef, e + 1, formatPath st.filepath (e + 1)) = true)) :
    on_epoch_end st e logs = ({ st with epochs_since_last_save := 0 }, []) := by
  rw [on_epoch_end_eq, if_pos (by omega)]
  dsimp only
  rw [hmet]
  dsimp only
  rw [if_pos hfull]
  unfold heappushpop
  rw [if_neg hnoswap]
  dsimp only
  rw [if_neg (show ¬ (current * st.coef, e + 1, formatPath st.filepath (e + 1)) ≠
    (current * st.coef, e + 1, formatPath st.filepath (e + 1)) from fun hx => hx rfl)]

lemma livePaths_append_warn (evs : List Event) (w : String) :
    livePaths (evs ++ [Event.warnMissingMetric w]) = livePaths evs := by
  unfold livePaths
  rw [persistedPaths_append, removedPaths_append]
  have h1 : persistedPaths [Event.warnMissingMetric w] = [] := rfl
  have h2 : removedPaths [Event.warnMissingMetric w] = [] := rfl
  rw [h1, h2, List.append_nil, List.append_nil]

lemma siftup_length (l : List Rec) (pos : ℕ) : (siftup l pos).length = l.length := by
  unfold siftup
  rw [siftupFuel_length]

/-! ### File lifecycle: state/trace invariant -/

/-- Paths of the retained records, in heap order. -/
def trackerPaths (st : State) : List String := st.tracker.map (fun r => r.2.2)

/-- The relation between the callback state and its event history that
the lifecycle argument maintains: configuration fixed, pool within
capacity, retained paths distinct and exactly the live files, persisted
paths distinct, and removals within the persisted set. -/
def Inv (n : ℕ) (tmpl : String) (st : State) (evs : List Event) : Prop :=
  st.n_models = n ∧
  st.filepath = tmpl ∧
  st.tracker.length ≤ n ∧
  (trackerPaths st).Nodup ∧
  List.Perm (trackerPaths st) (livePaths evs) ∧
  (persistedPaths evs).Nodup ∧
  (∀ p ∈ removedPaths evs, p ∈ persistedPaths evs)

lemma livePaths_subset (evs : List Event) : livePaths evs ⊆ persistedPaths evs :=
  fun _ hp => List.mem_of_mem_filter hp

lemma mem_livePaths_not_removed {p : String} {evs : List Event}
    (h : p ∈ livePaths evs) : p ∉ removedPaths evs := by
  unfold livePaths at h
  have := List.of_mem_filter h
  simpa using this

lemma persistedPaths_cons_remove (p : String) (es : List Event) :
    persistedPaths (Event.removeFile p :: es) = persistedPaths es := rfl

lemma removedPaths_cons_remove (p : String) (es : List Event) :
    removedPaths (Event.removeFile p :: es) = p :: removedPaths es := rfl

lemma length_filter_ne_of_nodup {α : Type} [DecidableEq α] (l : List α) (q : α)
    (hn : l.Nodup) (hq : q ∈ l) :
    (l.filter (fun p => decide (p ≠ q))).length + 1 = l.length := by
  induction l with
  | nil => simp at hq
  | cons a t ih =>
    rw [List.nodup_cons] at hn
    rcases List.mem_cons.1 hq with rfl | hq'
    · rw [List.filter_cons_of_neg (by simp)]
      rw [List.filter_eq_self.2 ?_]
      · simp
      · intro x hx
        simp only [decide_eq_true_eq]
        intro hxq
        exact hn.1 (hxq ▸ hx)
    · have hane : a ≠ q := fun h => hn.1 (h ▸ hq')
      rw [List.filter_cons_of_pos (by simpa using hane)]
      simp only [List.length_cons]
      rw [← ih hn.2 hq']

/-- One call preserves the lifecycle invariant and the trace contract,
provided the resolved path is globally fresh; its persist events are
confined to that resolved path. -/
lemma step_lifecycle (n : ℕ) (tmpl : String) (st : State) (evs : List Event)
    (e : ℕ) (logs : Logs)
    (hInv : Inv n tmpl st evs) (hG : GoodEvents n evs)
    (hfresh : formatPath tmpl (e + 1) ∉ persistedPaths evs) :
    Inv n tmpl (on_epoch_end st e logs).1 (evs ++ (on_epoch_end st e logs).2) ∧
    GoodEvents n (evs ++ (on_epoch_end st e logs).2) ∧
    persistedPaths (on_epoch_end st e logs).2 ⊆ [formatPath tmpl (e + 1)] := by
  obtain ⟨hn, htmpl, hlen, hnodup, hperm, hpnodup, hrp⟩ := hInv
  have hlive_n : (livePaths evs).length ≤ n := hG.2.2 evs [] (List.append_nil evs).symm
  have hfresh' : formatPath st.filepath (e + 1) ∉ persistedPaths evs := by
    rw [htmpl]; exact hfresh
  by_cases hper : st.period ≤ st.epochs_since_last_save + 1
  case neg =>
    rw [on_epoch_end_skip st e logs (by omega)]
    refine ⟨⟨hn, htmpl, hlen, hnodup, ?_, ?_, ?_⟩, ?_, by simp [persistedPaths]⟩
    · rw [List.append_nil]; exact hperm
    · rw [List.append_nil]; exact hpnodup
    · rw [List.append_nil]; exact hrp
    · rw [List.append_nil]; exact hG
  case pos =>
    cases hm : List.lookup st.monitor (logs.getD []) with
    | none =>
      rw [on_epoch_end_missing st e logs hper hm]
      have hple : persistedPaths (evs ++ [Event.warnMissingMetric st.monitor]) =
          persistedPaths evs := by
        rw [persistedPaths_append]
        simp [persistedPaths]
      have hrle : removedPaths (evs ++ [Event.warnMissingMetric st.monitor]) =
          removedPaths evs := by
        rw [removedPaths_append]
        simp [removedPaths]
      refine ⟨⟨hn, htmpl, hlen, hnodup, ?_, ?_, ?_⟩, ?_, by simp [persistedPaths]⟩
      · rw [livePaths_append_warn]; exact hperm
      · rw [hple]; exact hpnodup
      · rw [hrle, hple]; exact hrp
      · refine goodEvents_extend n evs _ hG ?_ ?_ ?_ ?_
        · intro e1 p e2 hsplit
          exfalso
          cases e1 with
          | nil => simp at hsplit
          | cons x e1' =>
            obtain ⟨hx, hrest⟩ := List.cons.inj hsplit
            cases e1' <;> simp at hrest
        · simp [removedPaths]
        · simp [removedPaths]
        · intro d1 d2 hsplit
          cases d1 with
          | nil => simpa using hlive_n
          | cons x d1' =>
            obtain ⟨hx, hrest⟩ := List.cons.inj hsplit
            cases d1' with
            | nil =>
              subst hx
              rw [livePaths_append_warn]
              exact hlive_n
            | cons y d1'' => simp at hrest
    | some current =>
      by_cases hroom : st.tracker.length < st.n_models
      · -- pool not full: push and persist
        rw [on_epoch_end_push st e logs current hper hm hroom]
        set fp := formatPath st.filepath (e + 1) with hfp
        set pev : Event := if st.save_weights_only then Event.saveModelWeights fp
          else Event.saveModel fp with hpev
        have hpev_per : persistedPaths [pev] = [fp] := by
          rw [hpev]; cases st.save_weights_only <;> rfl
        have hpev_rem : removedPaths [pev] = [] := by
          rw [hpev]; cases st.save_weights_only <;> rfl
        have hfrem : fp ∉ removedPaths evs := fun hc => hfresh' (hrp fp hc)
        have hlive' : livePaths (evs ++ [pev]) = livePaths evs ++ [fp] :=
          livePaths_append_persist evs pev fp hpev_per hpev_rem hfrem
        have htp : List.Perm (trackerPaths { st with
            epochs_since_last_save := 0
            tracker := heappush st.tracker (current * st.coef, e + 1, fp) })
            (trackerPaths st ++ [fp]) := by
          unfold trackerPaths
          have := (heappush_perm st.tracker (current * st.coef, e + 1, fp)).map
            (fun r : Rec => r.2.2)
          simpa using this
        have hfp_notin : fp ∉ trackerPaths st := by
          intro hc
          exact hfresh' (livePaths_subset evs (hperm.mem_iff.1 hc))
        have hevch : (if st.save_weights_only then
              [Event.saveModelWeights fp] else [Event.saveModel fp]) = [pev] := by
          rw [hpev]
          cases st.save_weights_only <;> rfl
        rw [hevch]
        refine ⟨⟨hn, htmpl, ?_, ?_, ?_, ?_, ?_⟩, ?_, ?_⟩
        · show (heappush st.tracker (current * st.coef, e + 1, fp)).length ≤ n
          rw [heappush_length]
          omega
        · refine (htp.nodup_iff).2 ?_
          rw [List.nodup_append]
          exact ⟨hnodup, List.nodup_singleton fp, by simpa using hfp_notin⟩
        · rw [hlive']
          exact htp.trans (hperm.append_right [fp])
        · rw [persistedPaths_append, hpev_per]
          rw [List.nodup_append]
          exact ⟨hpnodup, List.nodup_singleton fp, by simpa using hfresh'⟩
        · rw [persistedPaths_append, removedPaths_append, hpev_per, hpev_rem,
            List.append_nil]
          intro p hp
          exact List.mem_append_left _ (hrp p hp)
        · refine goodEvents_extend n evs _ hG ?_ ?_ ?_ ?_
          · intro e1 p e2 hsplit
            exfalso
            cases e1 with
            | nil =>
              rw [hpev] at hsplit
              cases hswo : st.save_weights_only <;> rw [hswo] at hsplit <;>
                simp at hsplit
            | cons x e1' =>
              obtain ⟨hx, hrest⟩ := List.cons.inj hsplit
              cases e1' <;> simp at hrest
          · rw [hpev_rem]; exact List.nodup_nil
          · rw [hpev_rem]; simp
          · intro d1 d2 hsplit
            cases d1 with
            | nil => simpa using hlive_n
            | cons x d1' =>
              obtain ⟨hx, hrest⟩ := List.cons.inj hsplit
              cases d1' with
              | nil =>
                subst hx
                rw [hlive']
                have hlenlive : (livePaths evs).length = (trackerPaths st).length :=
                  (hperm.length_eq).symm
                have htl : (trackerPaths st).length = st.tracker.length := by
                  unfold trackerPaths; simp
                simp only [List.length_append, List.length_singleton]
                omega
              | cons y d1'' => simp at hrest
        · rw [hpev_per, hfp, htmpl]
          exact fun x hx => hx
      · -- pool full
        have hfull : st.n_models ≤ st.tracker.length := by omega
        set cand : Rec := (current * st.coef, e + 1, formatPath st.filepath (e + 1))
          with hcand
        by_cases hswap : 0 < st.tracker.length ∧
            recLt (st.tracker.getD 0 dRec) cand = true
        · -- replacement: remove the old minimum's file, persist the new one
          rw [on_epoch_end_swap st e logs current hper hm hfull hswap]
          set fp := formatPath st.filepath (e + 1) with hfp
          set pev : Event := if st.save_weights_only then Event.saveModelWeights fp
            else Event.saveModel fp with hpev
          have hpev_per : persistedPaths [pev] = [fp] := by
            rw [hpev]; cases st.save_weights_only <;> rfl
          have hpev_rem : removedPaths [pev] = [] := by
            rw [hpev]; cases st.save_weights_only <;> rfl
          have hevch : (if st.save_weights_only then
                [Event.saveModelWeights fp] else [Event.saveModel fp]) = [pev] := by
            rw [hpev]
            cases st.save_weights_only <;> rfl
          rw [hevch]
          obtain ⟨hd, tl, htr⟩ : ∃ hd tl, st.tracker = hd :: tl := by
            cases h : st.tracker with
            | nil => rw [h] at hswap; simp at hswap
            | cons hd tl => exact ⟨hd, tl, rfl⟩
          set q := hd.2.2 with hq
          have hgetD : st.tracker.getD 0 dRec = hd := by rw [htr]; rfl
          rw [hgetD, ← hq]
          have htpst : trackerPaths st = q :: tl.map (fun r : Rec => r.2.2) := by
            unfold trackerPaths
            rw [htr]
            rfl
          have hq_live : q ∈ livePaths evs :=
            hperm.mem_iff.1 (by rw [htpst]; exact List.mem_cons_self q _)
          have hq_per : q ∈ persistedPaths evs := livePaths_subset evs hq_live
          have hq_nrem : q ∉ removedPaths evs := mem_livePaths_not_removed hq_live
          have hfrem : fp ∉ removedPaths (evs ++ [Event.removeFile q]) := by
            rw [removedPaths_append]
            intro hc
            rcases List.mem_append.1 hc with hc | hc
            · exact hfresh' (hrp fp hc)
            · have : fp = q := by simpa [removedPaths] using hc
              exact hfresh' (this ▸ hq_per)
          have hassoc : evs ++ [Event.removeFile q, pev] =
              (evs ++ [Event.removeFile q]) ++ [pev] := by
            simp
          have hlive' : livePaths (evs ++ [Event.removeFile q, pev]) =
              (livePaths evs).filter (fun p => decide (p ≠ q)) ++ [fp] := by
            rw [hassoc, livePaths_append_persist _ pev fp hpev_per hpev_rem hfrem,
              livePaths_append_remove]
          have hq_ntl : q ∉ tl.map (fun r : Rec => r.2.2) := by
            intro hc
            rw [htpst] at hnodup
            exact (List.nodup_cons.1 hnodup).1 hc
          have htlperm : List.Perm (tl.map (fun r : Rec => r.2.2))
              ((livePaths evs).filter (fun p => decide (p ≠ q))) := by
            have hstep := hperm.filter (fun p => decide (p ≠ q))
            rw [htpst, List.filter_cons_of_neg (by simp)] at hstep
            have hself : (tl.map (fun r : Rec => r.2.2)).filter
                (fun p => decide (p ≠ q)) = tl.map (fun r : Rec => r.2.2) := by
              apply List.filter_eq_self.2
              intro a ha
              simp only [decide_eq_true_eq]
              intro haq
              exact hq_ntl (haq ▸ ha)
            rw [hself] at hstep
            exact hstep
          have htp' : trackerPaths { st with
              epochs_since_last_save := 0
              tracker := siftup (st.tracker.set 0 cand) 0 } =
              (siftup (st.tracker.set 0 cand) 0).map (fun r : Rec => r.2.2) := rfl
          have hsiftperm : List.Perm (siftup (st.tracker.set 0 cand) 0)
              (cand :: tl) := by
            have h1 : List.Perm (siftup (st.tracker.set 0 cand) 0)
                (st.tracker.set 0 cand) := by
              have := heappushpop_perm_of_swap st.tracker cand hswap
              unfold heappushpop at this
              rw [if_pos hswap] at this
              exact this
            rw [htr, List.set_cons_zero] at h1 ⊢
            exact h1
          have hmapperm : List.Perm
              ((siftup (st.tracker.set 0 cand) 0).map (fun r : Rec => r.2.2))
              (fp :: tl.map (fun r : Rec => r.2.2)) := by
            have := hsiftperm.map (fun r : Rec => r.2.2)
            simpa using this
          have hfp_ntl : fp ∉ tl.map (fun r : Rec => r.2.2) := by
            intro hc
            apply hfresh'
            apply livePaths_subset evs
            apply hperm.mem_iff.1
            rw [htpst]
            exact List.mem_cons_of_mem q hc
          refine ⟨⟨hn, htmpl, ?_, ?_, ?_, ?_, ?_⟩, ?_, ?_⟩
          · show (siftup (st.tracker.set 0 cand) 0).length ≤ n
            rw [siftup_length, List.length_set]
            exact hlen
          · rw [htp']
            refine hmapperm.nodup_iff.2 ?_
            rw [List.nodup_cons]
            refine ⟨hfp_ntl, ?_⟩
            rw [htpst] at hnodup
            exact (List.nodup_cons.1 hnodup).2
          · rw [htp', hlive']
            refine hmapperm.trans ?_
            refine List.Perm.trans (List.perm_append_singleton fp _).symm ?_
            exact htlperm.append_right [fp]
          · rw [hassoc, persistedPaths_append, persistedPaths_append, hpev_per]
            have hpq : persistedPaths [Event.removeFile q] = [] := rfl
            rw [hpq, List.append_nil, List.nodup_append]
            refine ⟨hpnodup, List.nodup_singleton fp, by simpa using hfresh'⟩
          · rw [hassoc, persistedPaths_append, persistedPaths_append,
              removedPaths_append, removedPaths_append, hpev_per, hpev_rem]
            have hpq : persistedPaths [Event.removeFile q] = [] := rfl
            have hrq : removedPaths [Event.removeFile q] = [q] := rfl
            rw [hpq, hrq, List.append_nil, List.append_nil]
            intro p hp
            rcases List.mem_append.1 hp with hp | hp
            · exact List.mem_append_left _ (hrp p hp)
            · have : p = q := by simpa using hp
              exact List.mem_append_left _ (this ▸ hq_per)
          · refine goodEvents_extend n evs _ hG ?_ ?_ ?_ ?_
            · intro e1 p e2 hsplit
              cases e1 with
              | nil =>
                obtain ⟨hx, _⟩ := List.cons.inj hsplit
                have : p = q := by
                  have := congrArg (fun ev => match ev with
                    | Event.removeFile s => s
                    | _ => "") hx
                  simpa using this.symm
                subst this
                exact List.mem_append_left _ hq_per
              | cons x e1' =>
                exfalso
                obtain ⟨hx, hrest⟩ := List.cons.inj hsplit
                cases e1' with
                | nil =>
                  obtain ⟨hy, _⟩ := List.cons.inj hrest
                  rw [hpev] at hy
                  cases hswo : st.save_weights_only <;> rw [hswo] at hy <;>
                    simp at hy
                | cons y e1'' =>
                  obtain ⟨_, hrest2⟩ := List.cons.inj hrest
                  cases e1'' <;> simp at hrest2
            · rw [removedPaths_cons_remove, hpev_rem]
              simp
            · intro p hp
              rw [removedPaths_cons_remove, hpev_rem] at hp
              have : p = q := by simpa using hp
              subst this
              exact hq_nrem
            · intro d1 d2 hsplit
              cases d1 with
              | nil => simpa using hlive_n
              | cons x d1' =>
                obtain ⟨hx, hrest⟩ := List.cons.inj hsplit
                subst hx
                cases d1' with
                | nil =>
                  rw [livePaths_append_remove]
                  calc ((livePaths evs).filter fun p => decide (p ≠ q)).length
                      ≤ (livePaths evs).length := List.length_filter_le _ _
                    _ ≤ n := hlive_n
                | cons y d1'' =>
                  obtain ⟨hy, hrest2⟩ := List.cons.inj hrest
                  subst hy
                  cases d1'' with
                  | nil =>
                    rw [hlive']
                    have hlnodup : (livePaths evs).Nodup := hpnodup.filter _
                    have hcount := length_filter_ne_of_nodup (livePaths evs) q
                      hlnodup hq_live
                    rw [List.length_append, List.length_singleton]
                    omega
                  | cons z d1''' => simp at hrest2
          · rw [persistedPaths_cons_remove, hpev_per, hfp, htmpl]
            exact fun x hx => hx
        · -- no replacement: candidate discarded
          rw [on_epoch_end_noswap st e logs current hper hm hfull hswap]
          refine ⟨⟨hn, htmpl, hlen, hnodup, ?_, ?_, ?_⟩, ?_, by simp [persistedPaths]⟩
          · rw [List.append_nil]; exact hperm
          · rw [List.append_nil]; exact hpnodup
          · rw [List.append_nil]; exact hrp
          · rw [List.append_nil]; exact hG

lemma subset_singleton_nodup {α : Type} {l : List α} {a : α} (hs : l ⊆ [a])
    (hn : l.Nodup) : l = [] ∨ l = [a] := by
  cases l with
  | nil => exact Or.inl rfl
  | cons x t =>
    have hx : x = a := by simpa using hs (List.mem_cons_self x t)
    subst hx
    cases t with
    | nil => exact Or.inr rfl
    | cons y t' =>
      have hy : y = x := by
        simpa using hs (List.mem_cons_of_mem x (List.mem_cons_self y t'))
      rw [List.nodup_cons] at hn
      exact absurd (hy ▸ List.mem_cons_self y t') hn.1

/-- Running any call sequence whose resolved paths are fresh and distinct
preserves the lifecycle invariant and the trace contract. -/
lemma run_lifecycle (n : ℕ) (tmpl : String) :
    ∀ (calls : List Call) (st : State) (evs : List Event),
      Inv n tmpl st evs → GoodEvents n evs →
      (persistedPaths evs ++ calls.map (fun c => formatPath tmpl (c.1 + 1))).Nodup →
      Inv n tmpl (runFrom st calls).1 (evs ++ (runFrom st calls).2) ∧
      GoodEvents n (evs ++ (runFrom st calls).2) := by
  intro calls
  induction calls with
  | nil =>
    intro st evs hInv hG _
    simp only [runFrom, List.append_nil]
    exact ⟨hInv, hG⟩
  | cons c ct ih =>
    intro st evs hInv hG hnd
    have hfresh : formatPath tmpl (c.1 + 1) ∉ persistedPaths evs := by
      rw [List.nodup_append] at hnd
      intro hc
      exact hnd.2.2 hc (by simp)
    have hstep := step_lifecycle n tmpl st evs c.1 c.2 hInv hG hfresh
    have hpnodup' : (persistedPaths (evs ++ (on_epoch_end st c.1 c.2).2)).Nodup :=
      hstep.1.2.2.2.2.2.1
    have hnd' : (persistedPaths (evs ++ (on_epoch_end st c.1 c.2).2) ++
        ct.map (fun c => formatPath tmpl (c.1 + 1))).Nodup := by
      rw [persistedPaths_append] at hpnodup' ⊢
      have hdelta : persistedPaths (on_epoch_end st c.1 c.2).2 = [] ∨
          persistedPaths (on_epoch_end st c.1 c.2).2 = [formatPath tmpl (c.1 + 1)] :=
        subset_singleton_nodup hstep.2.2 ((List.nodup_append.1 hpnodup').2.1)
      rcases hdelta with hdelta | hdelta
      · rw [hdelta, List.append_nil]
        refine List.Nodup.sublist ?_ hnd
        exact List.Sublist.append_left (List.sublist_cons_self _ _) _
      · rw [hdelta, List.append_assoc]
        simpa using hnd
    have hrest := ih (on_epoch_end st c.1 c.2).1 (evs ++ (on_epoch_end st c.1 c.2).2)
      hstep.1 hstep.2.1 hnd'
    simp only [runFrom]
    rw [← List.append_assoc]
    exact hrest

/-- Claim C3: in any run whose resolved file paths are pairwise distinct
(and with the infallible persist/delete collaborators of the model),
every path passed to `os.remove` was passed to `model.save` /
`model.save_weights` by an earlier event, no path is removed twice, and
at every point of the event history at most `n_models` persisted files
are live (persisted and not yet removed). -/
theorem C3_file_lifecycle (fp monitor : String) (verbose n : ℕ) (swo : Bool)
    (mode : String) (period : ℕ) (calls : List Call)
    (hdist : (calls.map (fun c =>
      formatPath (init fp monitor verbose n swo mode period).1.filepath (c.1 + 1))).Nodup) :
    (∀ e1 p e2, (runFrom (init fp monitor verbose n swo mode period).1 calls).2 =
        e1 ++ Event.removeFile p :: e2 → p ∈ persistedPaths e1) ∧
    (removedPaths (runFrom (init fp monitor verbose n swo mode period).1 calls).2).Nodup ∧
    (∀ e1 e2, (runFrom (init fp monitor verbose n swo mode period).1 calls).2 = e1 ++ e2 →
      (livePaths e1).length ≤ n) := by
  have hInv0 : Inv n (init fp monitor verbose n swo mode period).1.filepath
      (init fp monitor verbose n swo mode period).1 [] := by
    refine ⟨rfl, rfl, ?_, ?_, ?_, ?_, ?_⟩
    · show (0 : ℕ) ≤ n
      omega
    · exact List.nodup_nil
    · exact List.Perm.refl []
    · exact List.nodup_nil
    · intro p hp
      simp [removedPaths] at hp
  have h := run_lifecycle n (init fp monitor verbose n swo mode period).1.filepath calls
    (init fp monitor verbose n swo mode period).1 [] hInv0 (goodEvents_nil n)
    (by simpa [persistedPaths] using hdist)
  rw [List.nil_append] at h
  exact ⟨h.2.1, h.2.2.1, h.2.2.2⟩

unseal Rat.mul in
/-- Claim C3 witness: on scenario A's four epochs the single removed path
`model_1.h5` was persisted earlier, no path is removed twice, and the
full history ends with two live files. -/
theorem C3_file_lifecycle_witness :
    "model_1.h5" ∈ persistedPaths
      [Event.saveModel "model_1.h5", Event.saveModel "model_2.h5"] ∧
    (removedPaths (runFrom (init "model.h5" "val_loss" 0 2 false "min" 1).1
      [(0, some [("val_loss", mkRat 1 2)]), (1, some [("val_loss", mkRat 3 10)]),
       (2, some [("val_loss", mkRat 2 5)]), (3, some [("val_loss", mkRat 3 5)])]).2).Nodup ∧
    (livePaths [Event.saveModel "model_1.h5", Event.saveModel "model_2.h5",
      Event.removeFile "model_1.h5", Event.saveModel "model_3.h5"]).length ≤ 2 := by
  have h := C3_file_lifecycle "model.h5" "val_loss" 0 2 false "min" 1
    [(0, some [("val_loss", mkRat 1 2)]), (1, some [("val_loss", mkRat 3 10)]),
     (2, some [("val_loss", mkRat 2 5)]), (3, some [("val_loss", mkRat 3 5)])] (by decide)
  refine ⟨?_, h.2.1, ?_⟩
  · exact h.1 [Event.saveModel "model_1.h5", Event.saveModel "model_2.h5"]
      "model_1.h5" [Event.saveModel "model_3.h5"] (by decide)
  · exact h.2.2 [Event.saveModel "model_1.h5", Event.saveModel "model_2.h5",
      Event.removeFile "model_1.h5", Event.saveModel "model_3.h5"] [] (by decide)

end ModelCheckpointTopN
